import Mathlib

/-!
# maptel: a registry of phone-number renumbering tables

A shallow embedding of `src/maptel.cc` and the properties of its operations.

* `std::string` is a list of characters; a `char const *` argument is
  `Option (List Char)`: `none` is the null pointer, `some s` a pointer to the
  characters `s` followed by a terminating zero.
* `std::unordered_map` is an association list read through its first entry for a
  key; `operator[]` adds a default entry for a missing key, as in the library.
* the process-wide state (the repository and `new_maptel_id`) is a `Store` passed
  explicitly; `unsigned long` and `size_t` are naturals below `2 ^ 64`.
* `assert` is compiled out under `NDEBUG`; every operation takes the flag.
* the two `while` loops take fuel.
-/

namespace Maptel

/-! ## Outcomes -/

/-- How a call ends: normally, by a failed `assert`, by undefined behaviour, or
with the loop fuel of the model used up. -/
inductive Outcome (α : Type) where
  | done (a : α)
  | assert_failed
  | undefined
  | out_of_fuel
  deriving DecidableEq, Repr

/-- Sequencing of outcomes. -/
def Outcome.bind {α β : Type} (x : Outcome α) (f : α → Outcome β) : Outcome β :=
  match x with
  | .done a => f a
  | .assert_failed => .assert_failed
  | .undefined => .undefined
  | .out_of_fuel => .out_of_fuel

/-- The C `assert`: nothing under `NDEBUG`, otherwise aborts when `c` is false. -/
def c_assert (ndebug : Bool) (c : Bool) : Outcome Unit :=
  if ndebug then .done () else if c then .done () else .assert_failed

/-! ## Data model -/

/-- The `std::string` type. -/
abbrev string := List Char

/-- Line 21: `using maptel = unordered_map<string, string>`. -/
abbrev maptel := List (string × string)

/-- Line 23: `using maptel_id = unsigned long`. -/
abbrev maptel_id := Nat

/-- Line 25: `using maptel_repo = unordered_map<maptel_id, maptel>`. -/
abbrev maptel_repo := List (maptel_id × maptel)

/-- Number of values of `unsigned long` and of `size_t`. -/
def ULONG_RANGE : Nat := 2 ^ 64

/-- The process-wide state: the repository and the counter `new_maptel_id`. -/
structure Store where
  repo : maptel_repo
  new_maptel_id : maptel_id
  deriving DecidableEq, Repr

/-- The state at process start: empty repository, `new_maptel_id = 0`. -/
def Store.initial : Store := ⟨[], 0⟩

/-! ## `std::unordered_map` -/

/-- The `find` member: the value stored under `k`, if any. -/
def um_find {K V : Type} [DecidableEq K] (k : K) : List (K × V) → Option V
  | [] => none
  | (k', v) :: rest => if k' = k then some v else um_find k rest

/-- The assignment `m[k] = v`: overwrites the entry of `k` or adds one. -/
def um_assign {K V : Type} [DecidableEq K] (k : K) (v : V) : List (K × V) → List (K × V)
  | [] => [(k, v)]
  | (k', v') :: rest => if k' = k then (k, v) :: rest else (k', v') :: um_assign k v rest

/-- The `erase(k)` member: drops the entry of `k`. -/
def um_erase {K V : Type} [DecidableEq K] (k : K) (m : List (K × V)) : List (K × V) :=
  m.filter (fun e => e.1 ≠ k)

/-- The expression `repository()[id]`: the table under `id`; a missing `id` gets
an empty table first. -/
def repository_at (id : maptel_id) (st : Store) : maptel × Store :=
  match um_find id st.repo with
  | some m => (m, st)
  | none => ([], { st with repo := um_assign id [] st.repo })

/-- The expression `m[k]` read as a value, for `m` the table `repository()[id]`:
a missing `k` gets the empty string as its value first. -/
def maptel_at (id : maptel_id) (k : string) (st : Store) : string × Store :=
  let (m, st1) := repository_at id st
  match um_find k m with
  | some v => (v, st1)
  | none => ([], { st1 with repo := um_assign id (um_assign k [] m) st1.repo })

/-- Lines 37-39. -/
def repo_contains (id : maptel_id) (st : Store) : Bool :=
  (um_find id st.repo).isSome

/-- Lines 42-45; `repository()[id]` may add an empty table. -/
def maptel_contains (id : maptel_id) (tel : string) (st : Store) : Bool × Store :=
  let (m, st1) := repository_at id st
  ((um_find tel m).isSome, st1)

/-! ## C strings -/

/-- The character `tel[i]` of a C string: the terminator at its end. -/
def c_char_at (tel : List Char) (i : Nat) : Char := tel.getD i (Char.ofNat 0)

/-- The conversion `string(tel)`: the characters before the first terminator. -/
def c_string (tel : List Char) : string := tel.takeWhile (fun c => c ≠ Char.ofNat 0)

/-- The loop of lines 100-104 with `n` iterations left: the value of `i` at which
it stops. -/
def is_valid_tel_loop (tel : List Char) : Nat → Nat → Nat
  | 0, i => i
  | n + 1, i => if !(c_char_at tel i).isDigit then i else is_valid_tel_loop tel n (i + 1)

/-- Lines 94-107; the constant of `maptel.h` is the parameter `TEL_NUM_MAX_LEN`. -/
def is_valid_tel (TEL_NUM_MAX_LEN : Nat) (tel : Option (List Char)) : Bool :=
  match tel with
  | none => false
  | some s =>
    let i := is_valid_tel_loop s (TEL_NUM_MAX_LEN + 1) 0
    c_char_at s i == Char.ofNat 0

/-! ## Writing the result -/

/-- Lines 110-113. -/
def is_valid_output (tel_src : string) (tel_dst : Option (List Char)) (len : Nat) : Bool :=
  tel_dst.isSome && decide (len ≥ tel_src.length + 1)

/-- The loop of lines 123-125 with `n` iterations left; a read past the end of
the string or a write past the end of the buffer is undefined. -/
def persist_loop (transformed_src : string) : Nat → Nat → List Char → Outcome (List Char)
  | 0, _, buf => .done buf
  | n + 1, i, buf =>
    if i ≤ transformed_src.length ∧ i < buf.length then
      persist_loop transformed_src n (i + 1) (buf.set i (c_char_at transformed_src i))
    else .undefined

/-- Lines 115-127; the result is the content of the buffer after the call. -/
def persist_transformation (ndebug : Bool) (transformed_src : string)
    (tel_dst : Option (List Char)) (len : Nat) : Outcome (List Char) :=
  (c_assert ndebug (is_valid_output transformed_src tel_dst len)).bind fun _ =>
  match tel_dst with
  | none => .undefined
  | some buf =>
    let output_size :=
      if transformed_src.length + 1 < len then transformed_src.length
      else (if len = 0 then ULONG_RANGE - 1 else len - 1)
    (persist_loop transformed_src output_size 0 buf).bind fun buf1 =>
    if output_size < buf1.length then .done (buf1.set output_size (Char.ofNat 0))
    else .undefined

/-! ## The resolver -/

/-- The loop of lines 142-146 with its variables `turtle`, `hare` and
`shouldTurtleMove`; the result is the final `(turtle, hare)`. -/
def cyclic_loop (id : maptel_id) :
    Nat → Store → string → string → Bool → Outcome ((string × string) × Store)
  | 0, _, _, _, _ => .out_of_fuel
  | fuel + 1, st, turtle, hare, shouldTurtleMove =>
    let (c, st1) := maptel_contains id hare st
    if c && turtle != hare then
      let (hare1, st2) := maptel_at id hare st1
      let (turtle1, st3) := if shouldTurtleMove then maptel_at id turtle st2 else (turtle, st2)
      cyclic_loop id fuel st3 turtle1 hare1 (!shouldTurtleMove)
    else .done ((turtle, hare), st1)

/-- Lines 129-149. -/
def isTransformationCyclic (ndebug : Bool) (fuel : Nat) (id : maptel_id) (tel_src : string)
    (st : Store) : Outcome (Bool × Store) :=
  (c_assert ndebug (repo_contains id st)).bind fun _ =>
  let (c, st1) := maptel_contains id tel_src st
  if !c then .done (false, st1)
  else
    let (_, st2) := repository_at id st1
    let turtle := tel_src
    let (hare, st3) := maptel_at id turtle st2
    (cyclic_loop id fuel st3 turtle hare false).bind fun r =>
    .done (r.1.2 == r.1.1, r.2)

/-- The loop of lines 155-157. -/
def transform_loop (id : maptel_id) : Nat → Store → string → Outcome (string × Store)
  | 0, _, _ => .out_of_fuel
  | fuel + 1, st, result =>
    let (c, st1) := maptel_contains id result st
    if c then
      let (result1, st2) := maptel_at id result st1
      transform_loop id fuel st2 result1
    else .done (result, st1)

/-- Lines 151-159; the `assert` runs `isTransformationCyclic` unless `NDEBUG`. -/
def transform (ndebug : Bool) (fuel : Nat) (id : maptel_id) (tel_src : string)
    (st : Store) : Outcome (string × Store) :=
  (if ndebug then .done st
   else (isTransformationCyclic ndebug fuel id tel_src st).bind fun r =>
     if r.1 then .assert_failed else .done r.2).bind fun st1 =>
  let (_, st2) := repository_at id st1
  transform_loop id fuel st2 tel_src

/-! ## The public operations -/

/-- Lines 163-168: the identifier returned and the new state. -/
def maptel_create (st : Store) : maptel_id × Store :=
  let (_, st1) := repository_at st.new_maptel_id st
  (st1.new_maptel_id, { st1 with new_maptel_id := (st1.new_maptel_id + 1) % ULONG_RANGE })

/-- Lines 170-181. -/
def maptel_delete (ndebug : Bool) (id : maptel_id) (st : Store) : Outcome Store :=
  (c_assert ndebug (repo_contains id st)).bind fun _ =>
  if !repo_contains id st then .done st
  else .done { st with repo := um_erase id st.repo }

/-- Lines 183-193. -/
def maptel_insert (ndebug : Bool) (TEL_NUM_MAX_LEN : Nat) (id : maptel_id)
    (tel_src tel_dst : Option (List Char)) (st : Store) : Outcome Store :=
  (c_assert ndebug (repo_contains id st && is_valid_tel TEL_NUM_MAX_LEN tel_src
    && is_valid_tel TEL_NUM_MAX_LEN tel_dst)).bind fun _ =>
  match tel_src, tel_dst with
  | some s, some d =>
    let src := c_string s
    let dst := c_string d
    let (m, st1) := repository_at id st
    .done { st1 with repo := um_assign id (um_assign src dst m) st1.repo }
  | _, _ => .undefined

/-- Lines 195-207. -/
def maptel_erase (ndebug : Bool) (TEL_NUM_MAX_LEN : Nat) (id : maptel_id)
    (tel_src : Option (List Char)) (st : Store) : Outcome Store :=
  (c_assert ndebug (repo_contains id st && is_valid_tel TEL_NUM_MAX_LEN tel_src)).bind fun _ =>
  match tel_src with
  | some s =>
    let src := c_string s
    let (c, st1) := maptel_contains id src st
    if !c then .done st1
    else
      let (m, st2) := repository_at id st1
      .done { st2 with repo := um_assign id (um_erase src m) st2.repo }
  | none => .undefined

/-- Lines 209-226: the content of the output buffer after the call and the new
state. -/
def maptel_transform (ndebug : Bool) (TEL_NUM_MAX_LEN : Nat) (fuel : Nat) (id : maptel_id)
    (tel_src : Option (List Char)) (tel_dst : Option (List Char)) (len : Nat)
    (st : Store) : Outcome (List Char × Store) :=
  (c_assert ndebug (repo_contains id st && is_valid_tel TEL_NUM_MAX_LEN tel_src
    && tel_dst.isSome)).bind fun _ =>
  match tel_src with
  | none => .undefined
  | some s =>
    let src := c_string s
    (isTransformationCyclic ndebug fuel id src st).bind fun r =>
    (if r.1 then .done (src, r.2) else transform ndebug fuel id (c_string s) r.2).bind fun t =>
    (persist_transformation ndebug t.1 tel_dst len).bind fun buf =>
    .done (buf, t.2)

end Maptel

namespace Maptel

/-! ## Chains of mappings -/

/-- The key reached from `k` after exactly `n` hops along the mappings of `m`;
`none` when the chain ended (at a key without an entry) before that. -/
def hops (m : maptel) : Nat → string → Option string
  | 0, k => some k
  | n + 1, k => (hops m n k).bind fun x => um_find x m

/-- Lines 215-222: the resolution step of `maptel_transform`, the string that
is handed to `persist_transformation`. -/
def resolve (ndebug : Bool) (fuel : Nat) (id : maptel_id) (src : string) (st : Store) :
    Outcome (string × Store) :=
  (isTransformationCyclic ndebug fuel id src st).bind fun r =>
  if r.1 then .done (src, r.2) else transform ndebug fuel id src r.2

/-- The string `r` is what the resolution of `src` in table `m` is to give: the
key without an entry at which the chain from `src` ends, or `src` itself when the
chain never reaches such a key. -/
def Resolves (m : maptel) (src r : string) : Prop :=
  (∃ n, hops m n src = some r ∧ um_find r m = none) ∨
    ((∀ n t, hops m n src = some t → um_find t m ≠ none) ∧ r = src)

/-! ## Reachable states -/

/-- The states reached from the state at process start by calls of the five
operations whose asserted conditions hold and that complete, in either build;
the index lists the identifiers returned by `maptel_create` so far, in order. -/
inductive Reachable (TEL_NUM_MAX_LEN : Nat) : List maptel_id → Store → Prop where
  | initial : Reachable TEL_NUM_MAX_LEN [] Store.initial
  | create {ids : List maptel_id} {st : Store} :
      Reachable TEL_NUM_MAX_LEN ids st →
      Reachable TEL_NUM_MAX_LEN (ids ++ [(maptel_create st).1]) (maptel_create st).2
  | delete {ids : List maptel_id} {st st1 : Store} (ndebug : Bool) (id : maptel_id) :
      Reachable TEL_NUM_MAX_LEN ids st →
      repo_contains id st = true →
      maptel_delete ndebug id st = .done st1 →
      Reachable TEL_NUM_MAX_LEN ids st1
  | insert {ids : List maptel_id} {st st1 : Store} (ndebug : Bool) (id : maptel_id)
      (tel_src tel_dst : Option (List Char)) :
      Reachable TEL_NUM_MAX_LEN ids st →
      (repo_contains id st && is_valid_tel TEL_NUM_MAX_LEN tel_src
        && is_valid_tel TEL_NUM_MAX_LEN tel_dst) = true →
      maptel_insert ndebug TEL_NUM_MAX_LEN id tel_src tel_dst st = .done st1 →
      Reachable TEL_NUM_MAX_LEN ids st1
  | erase {ids : List maptel_id} {st st1 : Store} (ndebug : Bool) (id : maptel_id)
      (tel_src : Option (List Char)) :
      Reachable TEL_NUM_MAX_LEN ids st →
      (repo_contains id st && is_valid_tel TEL_NUM_MAX_LEN tel_src) = true →
      maptel_erase ndebug TEL_NUM_MAX_LEN id tel_src st = .done st1 →
      Reachable TEL_NUM_MAX_LEN ids st1
  | transform {ids : List maptel_id} {st st1 : Store} (ndebug : Bool) (fuel : Nat)
      (id : maptel_id) (tel_src tel_dst : Option (List Char)) (len : Nat) (out : List Char) :
      Reachable TEL_NUM_MAX_LEN ids st →
      (repo_contains id st && is_valid_tel TEL_NUM_MAX_LEN tel_src && tel_dst.isSome) = true →
      maptel_transform ndebug TEL_NUM_MAX_LEN fuel id tel_src tel_dst len st = .done (out, st1) →
      Reachable TEL_NUM_MAX_LEN ids st1

/-- Every key and every value of every table is made of the digits `0`-`9`. -/
def StoredDigits (st : Store) : Prop :=
  ∀ e ∈ st.repo, ∀ kv ∈ e.2, (∀ c ∈ kv.1, c.isDigit = true) ∧ (∀ c ∈ kv.2, c.isDigit = true)

/-! ## Facts about the store -/

theorem repository_at_of_find {id : maptel_id} {st : Store} {m : maptel}
    (h : um_find id st.repo = some m) : repository_at id st = (m, st) := by
  simp [repository_at, h]

theorem maptel_contains_of_find {id : maptel_id} {st : Store} {m : maptel}
    (h : um_find id st.repo = some m) (k : string) :
    maptel_contains id k st = ((um_find k m).isSome, st) := by
  simp [maptel_contains, repository_at_of_find h]

theorem maptel_at_of_find {id : maptel_id} {st : Store} {m : maptel}
    (h : um_find id st.repo = some m) {k v : string} (hk : um_find k m = some v) :
    maptel_at id k st = (v, st) := by
  simp [maptel_at, repository_at_of_find h, hk]

theorem repo_contains_of_find {id : maptel_id} {st : Store} {m : maptel}
    (h : um_find id st.repo = some m) : repo_contains id st = true := by
  simp [repo_contains, h]

theorem c_assert_true (ndebug : Bool) : c_assert ndebug true = .done () := by
  cases ndebug <;> rfl

/-! ## Facts about chains -/

theorem hops_add (m : maptel) (a b : Nat) (k : string) :
    hops m (a + b) k = (hops m a k).bind fun y => hops m b y := by
  induction b with
  | zero => simp [hops]
  | succ b ih =>
    rw [← Nat.add_assoc]
    simp only [hops, ih]
    cases hops m a k <;> simp

theorem hops_succ_front (m : maptel) (n : Nat) (k : string) :
    hops m (n + 1) k = (um_find k m).bind fun y => hops m n y := by
  rw [Nat.add_comm, hops_add]
  simp [hops]

theorem hops_defined_of_le {m : maptel} {n i : Nat} {k t : string}
    (h : hops m n k = some t) (hi : i ≤ n) : ∃ y, hops m i k = some y := by
  obtain ⟨d, rfl⟩ := Nat.exists_eq_add_of_le hi
  rw [hops_add] at h
  cases hy : hops m i k with
  | none => simp [hy] at h
  | some y => exact ⟨y, rfl⟩

theorem hops_shift {m : maptel} {i j : Nat} {k : string}
    (h : hops m i k = hops m j k) (d : Nat) : hops m (i + d) k = hops m (j + d) k := by
  rw [hops_add, hops_add, h]

/-- On a chain that ends, no key occurs twice. -/
theorem hops_injective_of_end {m : maptel} {n : Nat} {k t : string}
    (hn : hops m n k = some t) (ht : um_find t m = none) {i j : Nat}
    (hij : i < j) (hj : j ≤ n) : hops m i k ≠ hops m j k := by
  intro h
  have h1 := hops_shift h (n - j)
  have h2 : j + (n - j) = n := by omega
  rw [h2, hn] at h1
  have h3 : hops m (i + (n - j) + 1) k = none := by
    simp [hops, h1, ht]
  obtain ⟨y, hy⟩ := hops_defined_of_le hn (show i + (n - j) + 1 ≤ n by omega)
  rw [hy] at h3
  cases h3

/-! ## The tortoise-and-hare loop -/

/-- One round of the loop: the hare has an entry and differs from the turtle. -/
theorem cyclic_loop_round {id : maptel_id} {st : Store} {m : maptel}
    (hid : um_find id st.repo = some m) {turtle hare hare1 : string}
    (hh : um_find hare m = some hare1) (hne : turtle ≠ hare) (fuel : Nat) :
    cyclic_loop id (fuel + 1) st turtle hare false
      = cyclic_loop id fuel st turtle hare1 true := by
  simp [cyclic_loop, maptel_contains_of_find hid, maptel_at_of_find hid hh, hh, hne]

/-- One round of the loop in which the turtle moves too. -/
theorem cyclic_loop_round_move {id : maptel_id} {st : Store} {m : maptel}
    (hid : um_find id st.repo = some m) {turtle turtle1 hare hare1 : string}
    (hh : um_find hare m = some hare1) (htt : um_find turtle m = some turtle1)
    (hne : turtle ≠ hare) (fuel : Nat) :
    cyclic_loop id (fuel + 1) st turtle hare true
      = cyclic_loop id fuel st turtle1 hare1 false := by
  simp [cyclic_loop, maptel_contains_of_find hid, maptel_at_of_find hid hh,
    maptel_at_of_find hid htt, hh, hne]

/-- The loop stops when the hare has no entry or has met the turtle. -/
theorem cyclic_loop_stop {id : maptel_id} {st : Store} {m : maptel}
    (hid : um_find id st.repo = some m) {turtle hare : string}
    (h : um_find hare m = none ∨ turtle = hare) (b : Bool) (fuel : Nat) :
    cyclic_loop id (fuel + 1) st turtle hare b = .done ((turtle, hare), st) := by
  rcases h with h | h <;> simp [cyclic_loop, maptel_contains_of_find hid, h]

/-- After `j` rounds the turtle is at position `j / 2` of the chain and the hare
at position `j + 1`; `d` further rounds in which the loop condition holds lead
to the positions of round `j + d`. -/
theorem cyclic_loop_rounds {id : maptel_id} {st : Store} {m : maptel}
    (hid : um_find id st.repo = some m) (src : string) (d : Nat) :
    ∀ (j : Nat) (turtle hare : string),
      hops m (j / 2) src = some turtle → hops m (j + 1) src = some hare →
      (∀ i, j ≤ i → i < j + d →
        (∃ y, hops m (i + 2) src = some y) ∧ hops m (i / 2) src ≠ hops m (i + 1) src) →
      ∃ turtle1 hare1, hops m ((j + d) / 2) src = some turtle1 ∧
        hops m (j + d + 1) src = some hare1 ∧
        ∀ fuel, cyclic_loop id (fuel + d) st turtle hare (decide (j % 2 = 1))
          = cyclic_loop id fuel st turtle1 hare1 (decide ((j + d) % 2 = 1)) := by
  induction d with
  | zero =>
    intro j turtle hare ht hh _
    exact ⟨turtle, hare, ht, hh, fun _ => rfl⟩
  | succ d ih =>
    intro j turtle hare ht hh hcont
    obtain ⟨⟨y, hy⟩, hne⟩ := hcont j (Nat.le_refl j) (by omega)
    have hne1 : turtle ≠ hare := by
      intro h; apply hne; rw [ht, hh, h]
    have hhy : um_find hare m = some y := by
      have h2 : hops m (j + 2) src = (hops m (j + 1) src).bind fun x => um_find x m := rfl
      rw [hh, hy] at h2
      simpa using h2.symm
    have hcont1 : ∀ i, j + 1 ≤ i → i < j + 1 + d →
        (∃ y, hops m (i + 2) src = some y) ∧ hops m (i / 2) src ≠ hops m (i + 1) src :=
      fun i h1 h2 => hcont i (by omega) (by omega)
    rcases Nat.mod_two_eq_zero_or_one j with hj | hj
    · -- the turtle stays
      have ht1 : hops m ((j + 1) / 2) src = some turtle := by
        have : (j + 1) / 2 = j / 2 := by omega
        rw [this]; exact ht
      obtain ⟨t1, h1, ht1f, hh1f, hrun⟩ := ih (j + 1) turtle y ht1 hy hcont1
      refine ⟨t1, h1, ?_, ?_, ?_⟩
      · rw [show j + (d + 1) = j + 1 + d by omega]; exact ht1f
      · rw [show j + (d + 1) = j + 1 + d by omega]; exact hh1f
      · intro fuel
        have e1 : decide (j % 2 = 1) = false := by simp [hj]
        have e2 : decide ((j + 1) % 2 = 1) = true := by
          have : (j + 1) % 2 = 1 := by omega
          simp [this]
        rw [show fuel + (d + 1) = (fuel + d) + 1 by omega, e1,
          cyclic_loop_round hid hhy hne1, show j + (d + 1) = j + 1 + d by omega]
        rw [e2] at hrun
        exact hrun fuel
    · -- the turtle moves
      obtain ⟨t2, ht2⟩ := hops_defined_of_le hh (show (j + 1) / 2 ≤ j + 1 by omega)
      have htt : um_find turtle m = some t2 := by
        have e : (j + 1) / 2 = j / 2 + 1 := by omega
        rw [e] at ht2
        have h2 : hops m (j / 2 + 1) src = (hops m (j / 2) src).bind fun x => um_find x m := rfl
        rw [ht, ht2] at h2
        simpa using h2.symm
      obtain ⟨t1, h1, ht1f, hh1f, hrun⟩ := ih (j + 1) t2 y ht2 hy hcont1
      refine ⟨t1, h1, ?_, ?_, ?_⟩
      · rw [show j + (d + 1) = j + 1 + d by omega]; exact ht1f
      · rw [show j + (d + 1) = j + 1 + d by omega]; exact hh1f
      · intro fuel
        have e1 : decide (j % 2 = 1) = true := by simp [hj]
        have e2 : decide ((j + 1) % 2 = 1) = false := by
          have : (j + 1) % 2 = 0 := by omega
          simp [this]
        rw [show fuel + (d + 1) = (fuel + d) + 1 by omega, e1,
          cyclic_loop_round_move hid hhy htt hne1, show j + (d + 1) = j + 1 + d by omega]
        rw [e2] at hrun
        exact hrun fuel

/-- Transposing the facts of a chain that ends after `n ≥ 1` hops: the loop of
`isTransformationCyclic` stops with the hare on the terminal key. -/
theorem cyclic_loop_of_end {id : maptel_id} {st : Store} {m : maptel}
    (hid : um_find id st.repo = some m) {src t hare : string} {n : Nat}
    (hn : hops m (n + 1) src = some t) (ht : um_find t m = none)
    (hh : um_find src m = some hare) (fuel : Nat) (hfuel : n < fuel) :
    ∃ turtle, turtle ≠ t ∧
      cyclic_loop id fuel st src hare false = .done ((turtle, t), st) := by
  have h1 : hops m (0 + 1) src = some hare := by simp [hops, hh]
  have hcont : ∀ i, 0 ≤ i → i < 0 + n →
      (∃ y, hops m (i + 2) src = some y) ∧ hops m (i / 2) src ≠ hops m (i + 1) src := by
    intro i _ hi
    exact ⟨hops_defined_of_le hn (by omega),
      hops_injective_of_end hn ht (show i / 2 < i + 1 by omega) (by omega)⟩
  obtain ⟨t1, h1', ht1, hh1, hrun⟩ :=
    cyclic_loop_rounds hid src n 0 src hare (by simp [hops]) h1 hcont
  have e : h1' = t := by
    rw [show 0 + n + 1 = n + 1 by omega, hn] at hh1
    exact (Option.some.inj hh1).symm
  subst e
  have hne : t1 ≠ h1' := by
    intro h
    have := hops_injective_of_end hn ht (show (0 + n) / 2 < n + 1 by omega) (Nat.le_refl _)
    apply this
    rw [ht1, hn, h]
  obtain ⟨f, rfl⟩ : ∃ f, fuel = (f + 1) + n := ⟨fuel - n - 1, by omega⟩
  refine ⟨t1, hne, ?_⟩
  have := hrun (f + 1)
  simp only [Nat.zero_mod, Nat.zero_ne_one, decide_False] at this
  rw [this, cyclic_loop_stop hid (Or.inl ht)]

/-- A chain that ends is not reported as cyclic. -/
theorem isTransformationCyclic_of_end (ndebug : Bool) {id : maptel_id} {st : Store}
    {m : maptel} (hid : um_find id st.repo = some m) {src t : string} {n : Nat}
    (hn : hops m n src = some t) (ht : um_find t m = none) (fuel : Nat) (hfuel : n ≤ fuel) :
    isTransformationCyclic ndebug fuel id src st = .done (false, st) := by
  unfold isTransformationCyclic
  rw [repo_contains_of_find hid, c_assert_true]
  simp only [Outcome.bind, maptel_contains_of_find hid, repository_at_of_find hid]
  cases n with
  | zero =>
    have : src = t := by simpa [hops] using hn
    subst this
    simp [ht]
  | succ n =>
    have hfront := hops_succ_front m n src
    rw [hn] at hfront
    cases hs : um_find src m with
    | none => simp [hs] at hfront
    | some hare =>
      obtain ⟨turtle, hne, hrun⟩ := cyclic_loop_of_end hid hn ht hs fuel (by omega)
      simp [maptel_at_of_find hid hs, hrun, Ne.symm hne]

/-- The key under `k` exists only if `k` is one of the keys of the table. -/
theorem mem_keys_of_um_find {K V : Type} [DecidableEq K] {k : K} {v : V} {m : List (K × V)}
    (h : um_find k m = some v) : k ∈ m.map Prod.fst := by
  induction m with
  | nil => simp [um_find] at h
  | cons e rest ih =>
    obtain ⟨k', v'⟩ := e
    by_cases hk : k' = k
    · simp [hk]
    · simp only [um_find, hk, if_false] at h
      simp [ih h]

/-- A chain that never ends comes back to a key: the table is finite. -/
theorem hops_revisit_of_endless {m : maptel} {src : string}
    (hall : ∀ n, ∃ y, hops m n src = some y) :
    ∃ i j, i < j ∧ hops m i src = hops m j src := by
  classical
  let g : Nat → string := fun i => (hops m i src).getD []
  have hmaps : ∀ a ∈ Finset.range (m.length + 1), g a ∈ (m.map Prod.fst).toFinset := by
    intro a _
    obtain ⟨y, hy⟩ := hall a
    obtain ⟨z, hz⟩ := hall (a + 1)
    have hf : um_find y m = some z := by
      have h2 : hops m (a + 1) src = (hops m a src).bind fun x => um_find x m := rfl
      rw [hy, hz] at h2
      simpa using h2.symm
    have : g a = y := by simp [g, hy]
    rw [this, List.mem_toFinset]
    exact mem_keys_of_um_find hf
  have hcard : ((m.map Prod.fst).toFinset).card < (Finset.range (m.length + 1)).card := by
    have := List.toFinset_card_le (m.map Prod.fst)
    simp only [List.length_map] at this
    simp only [Finset.card_range]
    omega
  obtain ⟨a, _, b, _, hab, hg⟩ := Finset.exists_ne_map_eq_of_card_lt_of_maps_to hcard hmaps
  have key : ∀ a b, g a = g b → hops m a src = hops m b src := by
    intro a b h
    obtain ⟨y, hy⟩ := hall a
    obtain ⟨z, hz⟩ := hall b
    simp only [g, hy, hz, Option.getD_some] at h
    rw [hy, hz, h]
  rcases Nat.lt_or_gt_of_ne hab with h | h
  · exact ⟨a, b, h, key a b hg⟩
  · exact ⟨b, a, h, (key a b hg).symm⟩

/-- On a chain that comes back to a key, the turtle and the hare meet. -/
theorem hops_meet_of_revisit {m : maptel} {src : string} {i j : Nat}
    (hij : i < j) (h : hops m i src = hops m j src) :
    ∃ r, hops m (r / 2) src = hops m (r + 1) src := by
  have hper : ∀ k d, hops m (i + d + k * (j - i)) src = hops m (i + d) src := by
    intro k
    induction k with
    | zero => intro d; simp
    | succ k ih =>
      intro d
      have e1 : i + d + (k + 1) * (j - i) = j + (d + k * (j - i)) := by
        rw [Nat.succ_mul]; omega
      rw [e1, ← hops_shift h (d + k * (j - i)), ← Nat.add_assoc]
      exact ih d
  have hpos : 1 ≤ (i + 1) * (j - i) := Nat.mul_pos (by omega) (by omega)
  have hge : i + 1 ≤ (i + 1) * (j - i) := Nat.le_mul_of_pos_right _ (by omega)
  refine ⟨2 * ((i + 1) * (j - i) - 1), ?_⟩
  have e1 : 2 * ((i + 1) * (j - i) - 1) / 2 = i + ((i + 1) * (j - i) - 1 - i) := by omega
  have e2 : 2 * ((i + 1) * (j - i) - 1) + 1
      = i + ((i + 1) * (j - i) - 1 - i) + (i + 1) * (j - i) := by omega
  rw [e1, e2, hper]

/-- A chain that never ends is reported as cyclic, with enough fuel. -/
theorem isTransformationCyclic_of_endless (ndebug : Bool) {id : maptel_id} {st : Store}
    {m : maptel} (hid : um_find id st.repo = some m) {src : string}
    (hall : ∀ n, ∃ y, hops m n src = some y) :
    ∃ N, ∀ fuel, N ≤ fuel → isTransformationCyclic ndebug fuel id src st = .done (true, st) := by
  classical
  obtain ⟨i, j, hij, hrev⟩ := hops_revisit_of_endless hall
  have hex := hops_meet_of_revisit hij hrev
  have hmin : ∀ r, r < Nat.find hex → hops m (r / 2) src ≠ hops m (r + 1) src :=
    fun r hr => Nat.find_min hex hr
  have hmeet := Nat.find_spec hex
  obtain ⟨hare, hh⟩ := hall 1
  have hs : um_find src m = some hare := by simpa [hops] using hh
  have hcont : ∀ r, 0 ≤ r → r < 0 + Nat.find hex →
      (∃ y, hops m (r + 2) src = some y) ∧ hops m (r / 2) src ≠ hops m (r + 1) src :=
    fun r _ hr => ⟨hall _, hmin r (by omega)⟩
  obtain ⟨t1, h1, ht1, hh1, hrun⟩ :=
    cyclic_loop_rounds hid src (Nat.find hex) 0 src hare (by simp [hops]) hh hcont
  have e : t1 = h1 := by
    rw [Nat.zero_add] at ht1 hh1
    rw [ht1, hh1] at hmeet
    exact Option.some.inj hmeet
  subst e
  refine ⟨Nat.find hex + 1, fun fuel hfuel => ?_⟩
  obtain ⟨f, rfl⟩ : ∃ f, fuel = (f + 1) + Nat.find hex := ⟨fuel - Nat.find hex - 1, by omega⟩
  have := hrun (f + 1)
  simp only [Nat.zero_mod, Nat.zero_ne_one, decide_False] at this
  unfold isTransformationCyclic
  rw [repo_contains_of_find hid, c_assert_true]
  simp [Outcome.bind, maptel_contains_of_find hid, repository_at_of_find hid, hs,
    maptel_at_of_find hid hs, this, cyclic_loop_stop hid (Or.inr rfl)]

/-! ## The chain-following loop -/

/-- On a chain that ends after `n` hops the loop of `transform` returns the
terminal key and leaves the store alone. -/
theorem transform_loop_of_end {id : maptel_id} {st : Store} {m : maptel}
    (hid : um_find id st.repo = some m) {t : string} (ht : um_find t m = none) (n : Nat) :
    ∀ (k : string), hops m n k = some t → ∀ fuel, n < fuel →
      transform_loop id fuel st k = .done (t, st) := by
  induction n with
  | zero =>
    intro k hk fuel hfuel
    have : k = t := by simpa [hops] using hk
    subst this
    obtain ⟨f, rfl⟩ : ∃ f, fuel = f + 1 := ⟨fuel - 1, by omega⟩
    simp [transform_loop, maptel_contains_of_find hid, ht]
  | succ n ih =>
    intro k hk fuel hfuel
    rw [hops_succ_front] at hk
    cases hs : um_find k m with
    | none => simp [hs] at hk
    | some v =>
      rw [hs] at hk
      obtain ⟨f, rfl⟩ : ∃ f, fuel = f + 1 := ⟨fuel - 1, by omega⟩
      simp only [transform_loop, maptel_contains_of_find hid, hs, Option.isSome_some, if_true,
        maptel_at_of_find hid hs]
      exact ih v (by simpa using hk) f (by omega)

/-- On a chain that ends `transform` passes its assertion and returns the
terminal key. -/
theorem transform_of_end (ndebug : Bool) {id : maptel_id} {st : Store} {m : maptel}
    (hid : um_find id st.repo = some m) {src t : string} {n : Nat}
    (hn : hops m n src = some t) (ht : um_find t m = none) (fuel : Nat) (hfuel : n < fuel) :
    transform ndebug fuel id src st = .done (t, st) := by
  unfold transform
  cases ndebug with
  | true =>
    simp [Outcome.bind, repository_at_of_find hid, transform_loop_of_end hid ht n src hn fuel hfuel]
  | false =>
    simp [Outcome.bind, isTransformationCyclic_of_end false hid hn ht fuel (by omega),
      repository_at_of_find hid, transform_loop_of_end hid ht n src hn fuel hfuel]

/-! ## The output buffer -/

theorem set_take_succ {α : Type} (buf : List α) (i : Nat) (c : α) (h : i < buf.length) :
    (buf.set i c).take (i + 1) = buf.take i ++ [c] := by
  rw [List.set_eq_take_append_cons_drop, if_pos h, List.take_append_eq_append_take]
  simp [List.length_take, Nat.min_eq_left (Nat.le_of_lt h)]

theorem set_drop_succ {α : Type} (buf : List α) (i n : Nat) (c : α) :
    (buf.set i c).drop (i + 1 + n) = buf.drop (i + 1 + n) := by
  apply List.ext_getElem?
  intro k
  simp [List.getElem?_drop, List.getElem?_set]
  omega

theorem drop_take_succ (src : List Char) (i n : Nat) (h : i < src.length) :
    (src.drop i).take (n + 1) = c_char_at src i :: (src.drop (i + 1)).take n := by
  rw [List.drop_eq_getElem_cons h, List.take_succ_cons]
  simp [c_char_at, List.getD_eq_getElem?_getD, List.getElem?_eq_getElem h]

/-- The copying loop overwrites positions `i .. i + n - 1` of the buffer with the
same positions of the string. -/
theorem persist_loop_eq (src : string) (n : Nat) :
    ∀ (i : Nat) (buf : List Char), i + n ≤ src.length → i + n ≤ buf.length →
      persist_loop src n i buf
        = .done (buf.take i ++ (src.drop i).take n ++ buf.drop (i + n)) := by
  induction n with
  | zero => intro i buf _ _; simp [persist_loop]
  | succ n ih =>
    intro i buf hs hb
    have h1 : i ≤ src.length ∧ i < buf.length := ⟨by omega, by omega⟩
    simp only [persist_loop, h1, and_self, if_true]
    rw [ih (i + 1) _ (by omega) (by simp; omega), set_take_succ _ _ _ h1.2,
      set_drop_succ, drop_take_succ src i n (by omega),
      show i + (n + 1) = i + 1 + n by omega]
    simp

/-- What `persist_transformation` writes when its assertion passes or is compiled
out, the capacity is at least 1 and the buffer has the capacity it is said to
have: the first `min L (len - 1)` characters of the string and a terminator. -/
theorem persist_transformation_eq (ndebug : Bool) (r : string) (buf : List Char) (len : Nat)
    (hassert : ndebug = true ∨ r.length + 1 ≤ len) (hlen : 1 ≤ len) (hbuf : len ≤ buf.length) :
    persist_transformation ndebug r (some buf) len
      = .done (r.take (min r.length (len - 1)) ++ Char.ofNat 0
          :: buf.drop (min r.length (len - 1) + 1)) := by
  have ha : c_assert ndebug (is_valid_output r (some buf) len) = .done () := by
    rcases hassert with h | h
    · subst h; rfl
    · have : is_valid_output r (some buf) len = true := by simp [is_valid_output, h]
      rw [this, c_assert_true]
  have hsize : (if r.length + 1 < len then r.length
      else (if len = 0 then ULONG_RANGE - 1 else len - 1)) = min r.length (len - 1) := by
    split_ifs <;> omega
  unfold persist_transformation
  rw [ha]
  simp only [Outcome.bind, hsize]
  generalize hk : min r.length (len - 1) = k
  have hk1 : k ≤ r.length := by omega
  have hk2 : k < buf.length := by omega
  rw [persist_loop_eq r k 0 buf (by omega) (by omega)]
  have hl : (r.take k).length = k := by simp [hk1]
  simp only [List.take_zero, List.nil_append, List.drop_zero, Nat.zero_add]
  have hlt : k < (List.take k r ++ List.drop k buf).length := by
    simp [hl]; omega
  rw [if_pos hlt, List.set_append_right _ _ (by simp [hl]), hl, Nat.sub_self,
    List.drop_eq_getElem_cons hk2, List.set_cons_zero]

/-! ## Resolution -/

/-- A chain on which every key reached has an entry goes on for ever. -/
theorem hops_defined_of_endless {m : maptel} {src : string}
    (hall : ∀ n t, hops m n src = some t → um_find t m ≠ none) :
    ∀ n, ∃ y, hops m n src = some y := by
  intro n
  induction n with
  | zero => exact ⟨src, rfl⟩
  | succ n ih =>
    obtain ⟨y, hy⟩ := ih
    cases hf : um_find y m with
    | none => exact absurd hf (hall n y hy)
    | some z => exact ⟨z, by simp [hops, hy, hf]⟩

/-- A chain that comes back to a key never reaches a key without an entry. -/
theorem endless_of_revisit {m : maptel} {src : string} {i j : Nat} (hij : i < j)
    (h : hops m i src = hops m j src) (hi : hops m i src ≠ none) :
    ∀ n t, hops m n src = some t → um_find t m ≠ none := by
  intro n t hn ht
  by_cases hjn : j ≤ n
  · exact hops_injective_of_end hn ht hij hjn h
  · cases hj : hops m j src with
    | none => exact hi (h.trans hj)
    | some y =>
      obtain ⟨z, hz⟩ := hops_defined_of_le hj (show n + 1 ≤ j by omega)
      simp [hops, hn, ht] at hz

/-- The call of `maptel_transform` once the resolved string `r` is known. -/
theorem maptel_transform_eq_of_resolved (ndebug : Bool) (TEL_NUM_MAX_LEN : Nat)
    {id : maptel_id} {st : Store} {m : maptel} (hid : um_find id st.repo = some m)
    {s : List Char} (hvalid : is_valid_tel TEL_NUM_MAX_LEN (some s) = true)
    (buf : List Char) (len fuel : Nat) {b : Bool} {r : string}
    (hcyc : isTransformationCyclic ndebug fuel id (c_string s) st = .done (b, st))
    (hres : (if b then Outcome.done (c_string s, st)
      else transform ndebug fuel id (c_string s) st) = .done (r, st)) :
    maptel_transform ndebug TEL_NUM_MAX_LEN fuel id (some s) (some buf) len st
      = (persist_transformation ndebug r (some buf) len).bind fun out => .done (out, st) := by
  unfold maptel_transform
  rw [repo_contains_of_find hid, hvalid]
  simp only [Option.isSome_some, Bool.and_self, c_assert_true, Outcome.bind, hcyc]
  cases b with
  | true =>
    simp only [if_true] at hres
    cases hres
    simp
  | false =>
    simp only [Bool.false_eq_true, if_false] at hres
    simp [hres]

/-- On a chain that ends at `t`, `maptel_transform` writes `t` and a terminator. -/
theorem maptel_transform_of_end (ndebug : Bool) (TEL_NUM_MAX_LEN : Nat) (st : Store)
    (id : maptel_id) (m : maptel) (s buf : List Char) (len n : Nat) (t : string)
    (hid : um_find id st.repo = some m)
    (hvalid : is_valid_tel TEL_NUM_MAX_LEN (some s) = true)
    (hn : hops m n (c_string s) = some t) (ht : um_find t m = none)
    (hlen : t.length < len) (hbuf : len ≤ buf.length) (fuel : Nat) (hfuel : n < fuel) :
    maptel_transform ndebug TEL_NUM_MAX_LEN fuel id (some s) (some buf) len st
      = .done (t ++ Char.ofNat 0 :: buf.drop (t.length + 1), st) := by
  rw [maptel_transform_eq_of_resolved ndebug TEL_NUM_MAX_LEN hid hvalid buf len fuel
    (isTransformationCyclic_of_end ndebug hid hn ht fuel (by omega))
    (by simpa using transform_of_end ndebug hid hn ht fuel hfuel),
    persist_transformation_eq ndebug t buf len (Or.inr (by omega)) (by omega) hbuf]
  have : min t.length (len - 1) = t.length := by omega
  simp [Outcome.bind, this]

/-- Claim C1 (acyclic resolution): if the chain of mappings of table `id` that
starts at the source reaches after `n` hops (possibly zero) a key `t` without an
entry, then `maptel_transform`, given a capacity larger than the length of `t`,
completes with any fuel above `n`, writes `t` and a terminator at the start of
the buffer, and leaves the store and the rest of the buffer as they were. -/
theorem maptel_transform_acyclic (ndebug : Bool) (TEL_NUM_MAX_LEN : Nat) (st : Store)
    (id : maptel_id) (m : maptel) (s buf : List Char) (len n : Nat) (t : string)
    (hid : um_find id st.repo = some m)
    (hvalid : is_valid_tel TEL_NUM_MAX_LEN (some s) = true)
    (hn : hops m n (c_string s) = some t) (ht : um_find t m = none)
    (hlen : t.length < len) (hbuf : len ≤ buf.length) (fuel : Nat) (hfuel : n < fuel) :
    maptel_transform ndebug TEL_NUM_MAX_LEN fuel id (some s) (some buf) len st
      = .done (t ++ Char.ofNat 0 :: buf.drop (t.length + 1), st) :=
  maptel_transform_of_end ndebug TEL_NUM_MAX_LEN st id m s buf len n t hid hvalid hn ht hlen hbuf
    fuel hfuel

/-- Witness of C1 on the table `1 -> 2, 2 -> 3`: the source `1` resolves to `3`. -/
theorem maptel_transform_acyclic_witness :
    maptel_transform false 22 3 0 (some ['1']) (some ['x', 'x', 'x']) 2
        ⟨[(0, [(['1'], ['2']), (['2'], ['3'])])], 1⟩
      = .done (['3', Char.ofNat 0, 'x'], ⟨[(0, [(['1'], ['2']), (['2'], ['3'])])], 1⟩) :=
  maptel_transform_acyclic false 22 ⟨[(0, [(['1'], ['2']), (['2'], ['3'])])], 1⟩ 0
    [(['1'], ['2']), (['2'], ['3'])] ['1'] ['x', 'x', 'x'] 2 2 ['3']
    (by decide) (by decide) (by decide) (by decide) (by decide) (by decide) 3 (by decide)

/-- Claim C2 (cycle identity): if the chain of mappings of table `id` that starts
at the source never reaches a key without an entry, then `maptel_transform`, given
a capacity larger than the length of the source, completes with enough fuel and
writes the source itself and a terminator, leaving the store as it was. -/
theorem maptel_transform_cyclic (ndebug : Bool) (TEL_NUM_MAX_LEN : Nat) (st : Store)
    (id : maptel_id) (m : maptel) (s buf : List Char) (len : Nat)
    (hid : um_find id st.repo = some m)
    (hvalid : is_valid_tel TEL_NUM_MAX_LEN (some s) = true)
    (hall : ∀ n t, hops m n (c_string s) = some t → um_find t m ≠ none)
    (hlen : (c_string s).length < len) (hbuf : len ≤ buf.length) :
    ∃ N, ∀ fuel, N ≤ fuel →
      maptel_transform ndebug TEL_NUM_MAX_LEN fuel id (some s) (some buf) len st
        = .done (c_string s ++ Char.ofNat 0 :: buf.drop ((c_string s).length + 1), st) := by
  obtain ⟨N, hN⟩ := isTransformationCyclic_of_endless ndebug hid (hops_defined_of_endless hall)
  refine ⟨N, fun fuel hfuel => ?_⟩
  have hres : (if true then Outcome.done (c_string s, st)
      else transform ndebug fuel id (c_string s) st) = .done (c_string s, st) := by simp
  rw [maptel_transform_eq_of_resolved ndebug TEL_NUM_MAX_LEN hid hvalid buf len fuel
    (hN fuel hfuel) hres,
    persist_transformation_eq ndebug (c_string s) buf len (Or.inr (by omega)) (by omega) hbuf]
  have : min (c_string s).length (len - 1) = (c_string s).length := by omega
  simp [Outcome.bind, this]

/-- Witness of C2 on the table `1 -> 2, 2 -> 3, 3 -> 2`: the chain from `1` enters
a cycle on which `1` does not lie, and `1` resolves to itself. -/
theorem maptel_transform_cyclic_witness :
    ∃ N, ∀ fuel, N ≤ fuel →
      maptel_transform false 22 fuel 0 (some ['1']) (some ['x', 'x', 'x']) 2
          ⟨[(0, [(['1'], ['2']), (['2'], ['3']), (['3'], ['2'])])], 1⟩
        = .done (['1', Char.ofNat 0, 'x'],
            ⟨[(0, [(['1'], ['2']), (['2'], ['3']), (['3'], ['2'])])], 1⟩) :=
  maptel_transform_cyclic false 22 ⟨[(0, [(['1'], ['2']), (['2'], ['3']), (['3'], ['2'])])], 1⟩ 0
    [(['1'], ['2']), (['2'], ['3']), (['3'], ['2'])] ['1'] ['x', 'x', 'x'] 2
    (by decide) (by decide)
    (endless_of_revisit (show 1 < 3 by decide) (by decide) (by decide))
    (by decide) (by decide)

/-- With enough fuel both loops of the resolver end, leaving the store alone. -/
theorem resolver_terminates (ndebug : Bool) (st : Store) (id : maptel_id) (m : maptel)
    (src : string) (hid : um_find id st.repo = some m) :
    ∃ N, ∀ fuel, N ≤ fuel →
      ∃ b, isTransformationCyclic ndebug fuel id src st = .done (b, st) ∧
        (b = false → ∃ r, transform ndebug fuel id src st = .done (r, st)) := by
  by_cases h : ∃ n t, hops m n src = some t ∧ um_find t m = none
  · obtain ⟨n, t, hn, ht⟩ := h
    exact ⟨n + 1, fun fuel hfuel => ⟨false,
      isTransformationCyclic_of_end ndebug hid hn ht fuel (by omega),
      fun _ => ⟨t, transform_of_end ndebug hid hn ht fuel (by omega)⟩⟩⟩
  · have hall : ∀ n t, hops m n src = some t → um_find t m ≠ none :=
      fun n t hn ht => h ⟨n, t, hn, ht⟩
    obtain ⟨N, hN⟩ := isTransformationCyclic_of_endless ndebug hid (hops_defined_of_endless hall)
    exact ⟨N, fun fuel hfuel => ⟨true, hN fuel hfuel, fun hb => by cases hb⟩⟩

/-- Claim C3 (termination): for every table, cyclic or not, and every source,
with enough fuel the loop of `isTransformationCyclic` ends with an answer, and
whenever that answer is `false` the loop of `transform` ends with a result; both
leave the store as it was. -/
theorem resolver_loops_terminate (ndebug : Bool) (st : Store) (id : maptel_id) (m : maptel)
    (src : string) (hid : um_find id st.repo = some m) :
    ∃ N, ∀ fuel, N ≤ fuel →
      ∃ b, isTransformationCyclic ndebug fuel id src st = .done (b, st) ∧
        (b = false → ∃ r, transform ndebug fuel id src st = .done (r, st)) :=
  resolver_terminates ndebug st id m src hid

/-- Witness of C3 on the cyclic table `1 -> 2, 2 -> 1`. -/
theorem resolver_loops_terminate_witness :
    ∃ N, ∀ fuel, N ≤ fuel →
      ∃ b, isTransformationCyclic false fuel 0 ['1'] ⟨[(0, [(['1'], ['2']), (['2'], ['1'])])], 1⟩
          = .done (b, ⟨[(0, [(['1'], ['2']), (['2'], ['1'])])], 1⟩) ∧
        (b = false → ∃ r, transform false fuel 0 ['1']
          ⟨[(0, [(['1'], ['2']), (['2'], ['1'])])], 1⟩
            = .done (r, ⟨[(0, [(['1'], ['2']), (['2'], ['1'])])], 1⟩)) :=
  resolver_loops_terminate false ⟨[(0, [(['1'], ['2']), (['2'], ['1'])])], 1⟩ 0
    [(['1'], ['2']), (['2'], ['1'])] ['1'] (by decide)

/-! ## Fuel -/

theorem Outcome.bind_eq_done {α β : Type} {x : Outcome α} {f : α → Outcome β} {b : β}
    (h : x.bind f = .done b) : ∃ a, x = .done a ∧ f a = .done b := by
  cases x with
  | done a => exact ⟨a, rfl, h⟩
  | assert_failed => cases h
  | undefined => cases h
  | out_of_fuel => cases h

theorem cyclic_loop_fuel_succ (id : maptel_id) (fuel : Nat) :
    ∀ (st : Store) (turtle hare : string) (b : Bool) (r : (string × string) × Store),
      cyclic_loop id fuel st turtle hare b = .done r →
      cyclic_loop id (fuel + 1) st turtle hare b = .done r := by
  induction fuel with
  | zero => intro st turtle hare b r h; cases h
  | succ fuel ih =>
    intro st turtle hare b r h
    rw [cyclic_loop] at h ⊢
    split at h
    next c st1 hc =>
      simp only [hc]
      split at h
      · rename_i hcond
        rw [if_pos hcond]
        split at h
        next hare1 st2 h2 =>
          simp only [h2]
          split at h
          next turtle1 st3 h3 =>
            simp only [h3]
            exact ih _ _ _ _ _ h
      · rename_i hcond
        rw [if_neg hcond]
        exact h

theorem transform_loop_fuel_succ (id : maptel_id) (fuel : Nat) :
    ∀ (st : Store) (k : string) (r : string × Store),
      transform_loop id fuel st k = .done r → transform_loop id (fuel + 1) st k = .done r := by
  induction fuel with
  | zero => intro st k r h; cases h
  | succ fuel ih =>
    intro st k r h
    rw [transform_loop] at h ⊢
    split at h
    next c st1 hc =>
      simp only [hc]
      split at h
      · rename_i hcond
        rw [if_pos hcond]
        split at h
        next r1 st2 h2 =>
          simp only [h2]
          exact ih _ _ _ h
      · rename_i hcond
        rw [if_neg hcond]
        exact h

theorem cyclic_loop_fuel_le (id : maptel_id) {fuel fuel1 : Nat} (hle : fuel ≤ fuel1)
    {st : Store} {turtle hare : string} {b : Bool} {r : (string × string) × Store}
    (h : cyclic_loop id fuel st turtle hare b = .done r) :
    cyclic_loop id fuel1 st turtle hare b = .done r := by
  induction hle with
  | refl => exact h
  | step _ ih => exact cyclic_loop_fuel_succ id _ _ _ _ _ _ ih

theorem transform_loop_fuel_le (id : maptel_id) {fuel fuel1 : Nat} (hle : fuel ≤ fuel1)
    {st : Store} {k : string} {r : string × Store}
    (h : transform_loop id fuel st k = .done r) : transform_loop id fuel1 st k = .done r := by
  induction hle with
  | refl => exact h
  | step _ ih => exact transform_loop_fuel_succ id _ _ _ _ ih

/-- More fuel does not change an answer of `isTransformationCyclic`. -/
theorem isTransformationCyclic_fuel_le (ndebug : Bool) (id : maptel_id) (src : string)
    {fuel fuel1 : Nat} (hle : fuel ≤ fuel1) {st : Store} {r : Bool × Store}
    (h : isTransformationCyclic ndebug fuel id src st = .done r) :
    isTransformationCyclic ndebug fuel1 id src st = .done r := by
  unfold isTransformationCyclic at h ⊢
  obtain ⟨u, hu, h⟩ := Outcome.bind_eq_done h
  rw [hu]
  simp only [Outcome.bind] at h ⊢
  split at h
  · rename_i hc
    rw [if_pos hc]; exact h
  · rename_i hc
    rw [if_neg hc]
    split at h
    · rename_i a heq
      rw [cyclic_loop_fuel_le id hle heq]; exact h
    · cases h
    · cases h
    · cases h

/-- More fuel does not change a result of `transform`. -/
theorem transform_fuel_le (ndebug : Bool) (id : maptel_id) (src : string)
    {fuel fuel1 : Nat} (hle : fuel ≤ fuel1) {st : Store} {r : string × Store}
    (h : transform ndebug fuel id src st = .done r) :
    transform ndebug fuel1 id src st = .done r := by
  unfold transform at h ⊢
  obtain ⟨st1, h1, h⟩ := Outcome.bind_eq_done h
  have h1f : (if ndebug = true then Outcome.done st
      else (isTransformationCyclic ndebug fuel1 id src st).bind fun r =>
        if r.1 = true then Outcome.assert_failed else Outcome.done r.2) = .done st1 := by
    cases ndebug with
    | true => exact h1
    | false =>
      simp only [Bool.false_eq_true, if_false] at h1 ⊢
      obtain ⟨q, hq, h1⟩ := Outcome.bind_eq_done h1
      rw [isTransformationCyclic_fuel_le false id src hle hq]
      exact h1
  rw [h1f]
  exact transform_loop_fuel_le id hle h

/-! ## Facts about `std::unordered_map` -/

theorem um_find_assign_eq {K V : Type} [DecidableEq K] (k : K) (v : V) (m : List (K × V)) :
    um_find k (um_assign k v m) = some v := by
  induction m with
  | nil => simp [um_assign, um_find]
  | cons e rest ih =>
    obtain ⟨k1, v1⟩ := e
    by_cases h : k1 = k
    · simp [um_assign, um_find, h]
    · simp [um_assign, um_find, h, ih]

theorem um_find_assign_ne {K V : Type} [DecidableEq K] {k k1 : K} (hne : k1 ≠ k) (v : V)
    (m : List (K × V)) : um_find k1 (um_assign k v m) = um_find k1 m := by
  induction m with
  | nil => simp [um_assign, um_find, Ne.symm hne]
  | cons e rest ih =>
    obtain ⟨k2, v2⟩ := e
    by_cases h : k2 = k
    · subst h
      simp [um_assign, um_find, Ne.symm hne]
    · by_cases h2 : k2 = k1
      · subst h2
        simp [um_assign, um_find, h]
      · simp [um_assign, um_find, h, h2, ih]

theorem um_find_erase {K V : Type} [DecidableEq K] (k k1 : K) (m : List (K × V)) :
    um_find k1 (um_erase k m) = if k1 = k then none else um_find k1 m := by
  induction m with
  | nil => simp [um_erase, um_find]
  | cons e rest ih =>
    obtain ⟨k2, v2⟩ := e
    simp [um_erase] at ih
    by_cases h : k2 = k
    · subst h
      by_cases h1 : k1 = k2
      · subst h1
        simpa [um_erase, um_find] using ih
      · simp [um_erase, um_find, ih, h1, Ne.symm h1]
    · by_cases h1 : k2 = k1
      · subst h1
        simp [um_erase, um_find, h]
      · simp [um_erase, um_find, h, h1, ih]

theorem mem_um_assign {K V : Type} [DecidableEq K] {k : K} {v : V} {m : List (K × V)}
    {e : K × V} (h : e ∈ um_assign k v m) : e = (k, v) ∨ e ∈ m := by
  induction m with
  | nil => simpa [um_assign] using h
  | cons e1 rest ih =>
    obtain ⟨k1, v1⟩ := e1
    by_cases hk : k1 = k
    · simp only [um_assign, hk, if_true, List.mem_cons] at h
      rcases h with h | h
      · exact Or.inl h
      · exact Or.inr (List.mem_cons_of_mem _ h)
    · simp only [um_assign, hk, if_false, List.mem_cons] at h
      rcases h with h | h
      · exact Or.inr (by simp [h])
      · rcases ih h with h | h
        · exact Or.inl h
        · exact Or.inr (List.mem_cons_of_mem _ h)

theorem mem_of_um_erase {K V : Type} [DecidableEq K] {k : K} {m : List (K × V)}
    {e : K × V} (h : e ∈ um_erase k m) : e ∈ m :=
  (List.mem_filter.mp h).1

theorem mem_of_um_find {K V : Type} [DecidableEq K] {k : K} {v : V} {m : List (K × V)}
    (h : um_find k m = some v) : (k, v) ∈ m := by
  induction m with
  | nil => simp [um_find] at h
  | cons e rest ih =>
    obtain ⟨k1, v1⟩ := e
    by_cases hk : k1 = k
    · simp only [um_find, hk, if_true, Option.some.injEq] at h
      simp [hk, h]
    · simp only [um_find, hk, if_false] at h
      exact List.mem_cons_of_mem _ (ih h)

/-! ## What each operation does to the store -/

theorem repo_contains_iff {id : maptel_id} {st : Store} :
    repo_contains id st = true ↔ ∃ m, um_find id st.repo = some m := by
  simp [repo_contains, Option.isSome_iff_exists]

/-- The identifier returned by `maptel_create` is the counter, and the counter
goes up by one modulo the range of `unsigned long`. -/
theorem maptel_create_eq (st : Store) :
    maptel_create st = (st.new_maptel_id,
      ⟨(repository_at st.new_maptel_id st).2.repo, (st.new_maptel_id + 1) % ULONG_RANGE⟩) := by
  unfold maptel_create repository_at
  cases um_find st.new_maptel_id st.repo <;> rfl

theorem maptel_delete_eq (ndebug : Bool) {id : maptel_id} {st : Store}
    (h : repo_contains id st = true) :
    maptel_delete ndebug id st = .done { st with repo := um_erase id st.repo } := by
  simp [maptel_delete, h, c_assert_true, Outcome.bind]

theorem maptel_insert_eq (ndebug : Bool) (TEL_NUM_MAX_LEN : Nat) {id : maptel_id} {st : Store}
    {m : maptel} (hid : um_find id st.repo = some m) {s d : List Char}
    (hs : is_valid_tel TEL_NUM_MAX_LEN (some s) = true)
    (hd : is_valid_tel TEL_NUM_MAX_LEN (some d) = true) :
    maptel_insert ndebug TEL_NUM_MAX_LEN id (some s) (some d) st
      = .done { st with repo := um_assign id (um_assign (c_string s) (c_string d) m) st.repo } := by
  simp [maptel_insert, repo_contains_of_find hid, hs, hd, c_assert_true, Outcome.bind,
    repository_at_of_find hid]

theorem maptel_erase_eq (ndebug : Bool) (TEL_NUM_MAX_LEN : Nat) {id : maptel_id} {st : Store}
    {m : maptel} (hid : um_find id st.repo = some m) {s : List Char}
    (hs : is_valid_tel TEL_NUM_MAX_LEN (some s) = true) :
    maptel_erase ndebug TEL_NUM_MAX_LEN id (some s) st
      = .done (if (um_find (c_string s) m).isSome
          then { st with repo := um_assign id (um_erase (c_string s) m) st.repo } else st) := by
  cases h : um_find (c_string s) m <;>
    simp [maptel_erase, repo_contains_of_find hid, hs, c_assert_true, Outcome.bind,
      repository_at_of_find hid, maptel_contains_of_find hid, h]

/-- A completed `maptel_transform` on an existing table leaves the store alone. -/
theorem maptel_transform_store_eq {ndebug : Bool} {TEL_NUM_MAX_LEN fuel : Nat} {id : maptel_id}
    {st st1 : Store} {m : maptel} (hid : um_find id st.repo = some m)
    {tel_src tel_dst : Option (List Char)} {len : Nat} {out : List Char}
    (h : maptel_transform ndebug TEL_NUM_MAX_LEN fuel id tel_src tel_dst len st
      = .done (out, st1)) : st1 = st := by
  unfold maptel_transform at h
  obtain ⟨u, _, h⟩ := Outcome.bind_eq_done h
  cases tel_src with
  | none => cases h
  | some s =>
    simp only at h
    obtain ⟨r, hr, h1⟩ := Outcome.bind_eq_done h
    obtain ⟨t, htr, h2⟩ := Outcome.bind_eq_done h1
    obtain ⟨buf, _, h3⟩ := Outcome.bind_eq_done h2
    clear h h1 h2
    obtain ⟨N, hN⟩ := resolver_terminates ndebug st id m (c_string s) hid
    obtain ⟨b, hb1, hb2⟩ := hN (max fuel N) (le_max_right _ _)
    have e := isTransformationCyclic_fuel_le ndebug id (c_string s) (le_max_left fuel N) hr
    rw [hb1] at e
    have e1 : r = (b, st) := (Outcome.done.inj e).symm
    subst e1
    have ht2 : t.2 = st := by
      cases b with
      | true =>
        simp only [if_true] at htr
        rw [← Outcome.done.inj htr]
      | false =>
        simp only [Bool.false_eq_true, if_false] at htr
        obtain ⟨r1, hr1⟩ := hb2 rfl
        have e2 := transform_fuel_le ndebug id (c_string s) (le_max_left fuel N) htr
        rw [hr1] at e2
        rw [← Outcome.done.inj e2]
    have h4 := Outcome.done.inj h3
    rw [← ht2, ← (Prod.mk.inj h4).2]

/-! ## Steps between reachable states -/

theorem maptel_delete_step {ndebug : Bool} {id : maptel_id} {st st1 : Store}
    (hpre : repo_contains id st = true) (hrun : maptel_delete ndebug id st = .done st1) :
    st1 = { st with repo := um_erase id st.repo } := by
  rw [maptel_delete_eq ndebug hpre] at hrun
  exact (Outcome.done.inj hrun).symm

theorem maptel_insert_step {ndebug : Bool} {TEL_NUM_MAX_LEN : Nat} {id : maptel_id}
    {tel_src tel_dst : Option (List Char)} {st st1 : Store}
    (hpre : (repo_contains id st && is_valid_tel TEL_NUM_MAX_LEN tel_src
      && is_valid_tel TEL_NUM_MAX_LEN tel_dst) = true)
    (hrun : maptel_insert ndebug TEL_NUM_MAX_LEN id tel_src tel_dst st = .done st1) :
    ∃ m s d, um_find id st.repo = some m ∧ is_valid_tel TEL_NUM_MAX_LEN (some s) = true ∧
      is_valid_tel TEL_NUM_MAX_LEN (some d) = true ∧
      st1 = { st with repo := um_assign id (um_assign (c_string s) (c_string d) m) st.repo } := by
  simp only [Bool.and_eq_true] at hpre
  obtain ⟨⟨h1, h2⟩, h3⟩ := hpre
  obtain ⟨m, hm⟩ := repo_contains_iff.mp h1
  cases tel_src with
  | none => simp [is_valid_tel] at h2
  | some s =>
    cases tel_dst with
    | none => simp [is_valid_tel] at h3
    | some d =>
      rw [maptel_insert_eq ndebug TEL_NUM_MAX_LEN hm h2 h3] at hrun
      exact ⟨m, s, d, hm, h2, h3, (Outcome.done.inj hrun).symm⟩

theorem maptel_erase_step {ndebug : Bool} {TEL_NUM_MAX_LEN : Nat} {id : maptel_id}
    {tel_src : Option (List Char)} {st st1 : Store}
    (hpre : (repo_contains id st && is_valid_tel TEL_NUM_MAX_LEN tel_src) = true)
    (hrun : maptel_erase ndebug TEL_NUM_MAX_LEN id tel_src st = .done st1) :
    st1 = st ∨ ∃ m s, um_find id st.repo = some m ∧
      st1 = { st with repo := um_assign id (um_erase (c_string s) m) st.repo } := by
  simp only [Bool.and_eq_true] at hpre
  obtain ⟨h1, h2⟩ := hpre
  obtain ⟨m, hm⟩ := repo_contains_iff.mp h1
  cases tel_src with
  | none => simp [is_valid_tel] at h2
  | some s =>
    rw [maptel_erase_eq ndebug TEL_NUM_MAX_LEN hm h2] at hrun
    have e := (Outcome.done.inj hrun).symm
    split at e
    · exact Or.inr ⟨m, s, hm, e⟩
    · exact Or.inl e

theorem maptel_transform_step {ndebug : Bool} {TEL_NUM_MAX_LEN fuel : Nat} {id : maptel_id}
    {tel_src tel_dst : Option (List Char)} {len : Nat} {out : List Char} {st st1 : Store}
    (hpre : (repo_contains id st && is_valid_tel TEL_NUM_MAX_LEN tel_src
      && tel_dst.isSome) = true)
    (hrun : maptel_transform ndebug TEL_NUM_MAX_LEN fuel id tel_src tel_dst len st
      = .done (out, st1)) : st1 = st := by
  simp only [Bool.and_eq_true] at hpre
  obtain ⟨m, hm⟩ := repo_contains_iff.mp hpre.1.1
  exact maptel_transform_store_eq hm hrun

/-- Assigning to an identifier that has a table adds no identifier. -/
theorem repo_contains_assign {id id1 : maptel_id} {st : Store} {v : maptel}
    (hid : repo_contains id st = true)
    (h : repo_contains id1 { st with repo := um_assign id v st.repo } = true) :
    repo_contains id1 st = true := by
  by_cases e : id1 = id
  · rw [e]; exact hid
  · simpa [repo_contains, um_find_assign_ne e] using h

/-- The counter counts the calls of `maptel_create` modulo the range of
`unsigned long`, the identifiers returned are the successive values of the
counter, and until the counter wraps every identifier in use lies below it. -/
theorem reachable_counter {TEL_NUM_MAX_LEN : Nat} {ids : List maptel_id} {st : Store}
    (h : Reachable TEL_NUM_MAX_LEN ids st) :
    st.new_maptel_id = ids.length % ULONG_RANGE ∧
      ids = (List.range ids.length).map (fun i => i % ULONG_RANGE) ∧
      (ids.length ≤ ULONG_RANGE → ∀ id : Nat, repo_contains id st = true → id < ids.length) := by
  induction h with
  | initial => simp [Store.initial, repo_contains, um_find]
  | @create ids st _ ih =>
    obtain ⟨h1, h2, h3⟩ := ih
    rw [maptel_create_eq]
    refine ⟨?_, ?_, ?_⟩
    · simp only [List.length_append, List.length_singleton, h1]
      exact Nat.mod_add_mod _ _ 1
    · simp only [List.length_append, List.length_singleton, List.range_succ, List.map_append,
        List.map_cons, List.map_nil, ← h2, h1]
    · intro hle id hc
      simp only [List.length_append, List.length_singleton] at hle ⊢
      have hlt : ids.length % ULONG_RANGE = ids.length := Nat.mod_eq_of_lt (by omega)
      by_cases e : id = st.new_maptel_id
      · rw [e, h1, hlt]; omega
      · have : repo_contains id st = true := by
          simp only [repository_at] at hc
          cases hf : um_find st.new_maptel_id st.repo with
          | none =>
            simp only [hf] at hc
            simpa [repo_contains, um_find_assign_ne e] using hc
          | some m =>
            simpa [hf] using hc
        have := h3 (by omega) id this
        omega
  | delete ndebug id _ hpre hrun ih =>
    obtain ⟨h1, h2, h3⟩ := ih
    rw [maptel_delete_step hpre hrun]
    refine ⟨h1, h2, fun hle id1 hc => h3 hle id1 ?_⟩
    simp only [repo_contains, um_find_erase] at hc ⊢
    split at hc
    · simp at hc
    · exact hc
  | insert ndebug id tel_src tel_dst _ hpre hrun ih =>
    obtain ⟨h1, h2, h3⟩ := ih
    obtain ⟨m, s, d, hm, _, _, e⟩ := maptel_insert_step hpre hrun
    rw [e]
    exact ⟨h1, h2, fun hle id1 hc =>
      h3 hle id1 (repo_contains_assign (repo_contains_of_find hm) hc)⟩
  | erase ndebug id tel_src _ hpre hrun ih =>
    obtain ⟨h1, h2, h3⟩ := ih
    rcases maptel_erase_step hpre hrun with e | ⟨m, s, hm, e⟩
    · rw [e]; exact ⟨h1, h2, h3⟩
    · rw [e]
      exact ⟨h1, h2, fun hle id1 hc =>
        h3 hle id1 (repo_contains_assign (repo_contains_of_find hm) hc)⟩
  | transform ndebug fuel id tel_src tel_dst len out _ hpre hrun ih =>
    rw [maptel_transform_step hpre hrun]; exact ih

/-! ## Facts about `is_valid_tel` -/

theorem c_char_at_cons_succ (c : Char) (rest : List Char) (i : Nat) :
    c_char_at (c :: rest) (i + 1) = c_char_at rest i := by
  simp [c_char_at]

theorem is_valid_tel_loop_cons (c : Char) (rest : List Char) (n : Nat) :
    ∀ i, is_valid_tel_loop (c :: rest) n (i + 1) = is_valid_tel_loop rest n i + 1 := by
  induction n with
  | zero => intro i; rfl
  | succ n ih =>
    intro i
    simp only [is_valid_tel_loop, c_char_at_cons_succ]
    split
    · rfl
    · exact ih (i + 1)

/-- When the scan stops on a terminator, the characters before the first
terminator are digits. -/
theorem digits_of_is_valid_tel_loop (n : Nat) :
    ∀ s : List Char, c_char_at s (is_valid_tel_loop s n 0) = Char.ofNat 0 →
      ∀ c ∈ c_string s, c.isDigit = true := by
  induction n with
  | zero =>
    intro s h
    cases s with
    | nil => simp [c_string]
    | cons c rest =>
      have : c = Char.ofNat 0 := by simpa [is_valid_tel_loop, c_char_at] using h
      simp [c_string, this]
  | succ n ih =>
    intro s h
    cases s with
    | nil => simp [c_string]
    | cons c rest =>
      by_cases hd : c.isDigit = true
      · have hc : c ≠ Char.ofNat 0 := by
          intro e; rw [e] at hd; exact absurd hd (by decide)
        simp only [is_valid_tel_loop, c_char_at, List.getD_cons_zero, hd, Bool.not_true,
          Bool.false_eq_true, if_false] at h
        rw [is_valid_tel_loop_cons] at h
        have h1 : c_char_at rest (is_valid_tel_loop rest n 0) = Char.ofNat 0 := by
          simpa [c_char_at] using h
        have := ih rest h1
        intro x hx
        have hx1 : x = c ∨ x ∈ c_string rest := by
          simpa [c_string, List.takeWhile_cons, hc] using hx
        rcases hx1 with e | e
        · rw [e]; exact hd
        · exact this x e
      · have : c = Char.ofNat 0 := by
          simpa [is_valid_tel_loop, c_char_at, hd] using h
        simp [c_string, this]

/-- A string accepted by `is_valid_tel` is stored as a string of digits. -/
theorem digits_of_is_valid_tel {TEL_NUM_MAX_LEN : Nat} {s : List Char}
    (h : is_valid_tel TEL_NUM_MAX_LEN (some s) = true) : ∀ c ∈ c_string s, c.isDigit = true := by
  apply digits_of_is_valid_tel_loop (TEL_NUM_MAX_LEN + 1) s
  simpa [is_valid_tel] using h

/-- On a run of `k` zeros the scan of `n` iterations stops at `min n k`. -/
theorem is_valid_tel_loop_replicate (n : Nat) :
    ∀ k, is_valid_tel_loop (List.replicate k '0') n 0 = min n k := by
  induction n with
  | zero => intro k; simp [is_valid_tel_loop]
  | succ n ih =>
    intro k
    cases k with
    | zero => simp [is_valid_tel_loop, c_char_at]
    | succ k =>
      have hd : Char.isDigit '0' = true := by decide
      simp only [List.replicate_succ, is_valid_tel_loop, c_char_at, List.getD_cons_zero, hd,
        Bool.not_true, Bool.false_eq_true, if_false]
      rw [is_valid_tel_loop_cons, ih k]
      omega

/-! ## Invariants of the reachable states -/

theorem storedDigits_assign {st : Store} {id : maptel_id} {m1 : maptel}
    (h : StoredDigits st)
    (h1 : ∀ kv ∈ m1, (∀ c ∈ kv.1, c.isDigit = true) ∧ (∀ c ∈ kv.2, c.isDigit = true)) :
    StoredDigits { st with repo := um_assign id m1 st.repo } := by
  intro e he
  rcases mem_um_assign he with e1 | e1
  · rw [e1]; exact h1
  · exact h e e1

/-- Every key and every value stored in a reachable state is a string of digits. -/
theorem reachable_storedDigits {TEL_NUM_MAX_LEN : Nat} {ids : List maptel_id} {st : Store}
    (h : Reachable TEL_NUM_MAX_LEN ids st) : StoredDigits st := by
  induction h with
  | initial => intro e he; simp [Store.initial] at he
  | @create ids st _ ih =>
    rw [maptel_create_eq]
    simp only [repository_at]
    cases um_find st.new_maptel_id st.repo with
    | none => exact storedDigits_assign ih (by simp)
    | some m => exact ih
  | delete ndebug id _ hpre hrun ih =>
    rw [maptel_delete_step hpre hrun]
    intro e he
    exact ih e (mem_of_um_erase he)
  | insert ndebug id tel_src tel_dst _ hpre hrun ih =>
    obtain ⟨m, s, d, hm, hs, hd, e⟩ := maptel_insert_step hpre hrun
    rw [e]
    refine storedDigits_assign ih fun kv hkv => ?_
    rcases mem_um_assign hkv with e1 | e1
    · rw [e1]; exact ⟨digits_of_is_valid_tel hs, digits_of_is_valid_tel hd⟩
    · exact ih (id, m) (mem_of_um_find hm) kv e1
  | erase ndebug id tel_src _ hpre hrun ih =>
    rcases maptel_erase_step hpre hrun with e | ⟨m, s, hm, e⟩
    · rw [e]; exact ih
    · rw [e]
      exact storedDigits_assign ih fun kv hkv =>
        ih (id, m) (mem_of_um_find hm) kv (mem_of_um_erase hkv)
  | transform ndebug fuel id tel_src tel_dst len out _ hpre hrun ih =>
    rw [maptel_transform_step hpre hrun]; exact ih

/-- The expression `repository()[id1]` keeps every table there is. -/
theorem um_find_repository_at {id id1 : maptel_id} {st : Store} {m : maptel}
    (h : um_find id st.repo = some m) : um_find id (repository_at id1 st).2.repo = some m := by
  unfold repository_at
  cases hf : um_find id1 st.repo with
  | some m1 => exact h
  | none =>
    have hne : id ≠ id1 := by
      intro e; rw [e, hf] at h; cases h
    simpa [um_find_assign_ne hne] using h

/-- From a reachable state, `k` further calls of `maptel_create` lead to a
reachable state that still holds every table. -/
theorem reachable_creates {TEL_NUM_MAX_LEN : Nat} {ids : List maptel_id} {st : Store}
    (h : Reachable TEL_NUM_MAX_LEN ids st) (k : Nat) :
    ∃ ids1 st1, Reachable TEL_NUM_MAX_LEN ids1 st1 ∧ ids1.length = ids.length + k ∧
      ∀ id m, um_find id st.repo = some m → um_find id st1.repo = some m := by
  induction k with
  | zero => exact ⟨ids, st, h, rfl, fun _ _ hm => hm⟩
  | succ k ih =>
    obtain ⟨ids1, st1, hr, hl, hk⟩ := ih
    refine ⟨_, _, Reachable.create hr, by simp [hl, Nat.add_assoc], fun id m hm => ?_⟩
    rw [maptel_create_eq]
    exact um_find_repository_at (hk id m hm)

/-! ## Resolution and the output buffer -/

/-- With enough fuel `maptel_transform` hands the resolved string to
`persist_transformation` and leaves the store alone. -/
theorem maptel_transform_of_resolves (ndebug : Bool) (TEL_NUM_MAX_LEN : Nat)
    {id : maptel_id} {st : Store} {m : maptel} (hid : um_find id st.repo = some m)
    {s : List Char} (hvalid : is_valid_tel TEL_NUM_MAX_LEN (some s) = true)
    (buf : List Char) (len : Nat) {r : string} (hres : Resolves m (c_string s) r) :
    ∃ N, ∀ fuel, N ≤ fuel →
      maptel_transform ndebug TEL_NUM_MAX_LEN fuel id (some s) (some buf) len st
        = (persist_transformation ndebug r (some buf) len).bind fun out => .done (out, st) := by
  rcases hres with ⟨n, hn, ht⟩ | ⟨hall, hr⟩
  · refine ⟨n + 1, fun fuel hfuel => ?_⟩
    exact maptel_transform_eq_of_resolved ndebug TEL_NUM_MAX_LEN hid hvalid buf len fuel
      (isTransformationCyclic_of_end ndebug hid hn ht fuel (by omega))
      (by simpa using transform_of_end ndebug hid hn ht fuel (by omega))
  · obtain ⟨N, hN⟩ :=
      isTransformationCyclic_of_endless ndebug hid (hops_defined_of_endless hall)
    refine ⟨N, fun fuel hfuel => ?_⟩
    have hres : (if true then Outcome.done (c_string s, st)
        else transform ndebug fuel id (c_string s) st) = .done (r, st) := by simp [hr]
    exact maptel_transform_eq_of_resolved ndebug TEL_NUM_MAX_LEN hid hvalid buf len fuel
      (hN fuel hfuel) hres

/-- With assertions enabled, a capacity that cannot hold the string and its
terminator fails the assertion of `persist_transformation`. -/
theorem persist_transformation_assert (r : string) (tel_dst : Option (List Char)) (len : Nat)
    (h : len < r.length + 1) :
    persist_transformation false r tel_dst len = .assert_failed := by
  have : is_valid_output r tel_dst len = false := by
    simp [is_valid_output]
    intro _
    omega
  simp [persist_transformation, c_assert, this, Outcome.bind]

/-! ## Creation -/

/-- Claim C4, refuted as stated: after a create, an insert of `1 -> 2` into table
0 and further creates up to the wrap of the `unsigned long` counter, a state is
reached in which `maptel_create` returns 0 again, the table under the returned
identifier still maps `1` to `2`, and `maptel_transform` turns `1` into `2`. -/
theorem fresh_table_counterexample :
    ∃ ids st, Reachable 22 ids st ∧
      um_find (maptel_create st).1 (maptel_create st).2.repo = some [(['1'], ['2'])] ∧
      maptel_transform false 22 2 (maptel_create st).1 (some ['1']) (some ['x', 'x']) 2
          (maptel_create st).2
        = .done (['2', Char.ofNat 0], (maptel_create st).2) := by
  have h0 : Reachable 22 [0] ⟨[(0, [])], 1⟩ := Reachable.create Reachable.initial
  have h1 : Reachable 22 [0] ⟨[(0, [(['1'], ['2'])])], 1⟩ :=
    Reachable.insert false 0 (some ['1']) (some ['2']) h0 (by decide) (by decide)
  obtain ⟨ids, st, hr, hl, hk⟩ := reachable_creates h1 (ULONG_RANGE - 1)
  have hc : st.new_maptel_id = 0 := by
    rw [(reachable_counter hr).1, hl]
    decide
  have hid : um_find 0 st.repo = some [(['1'], ['2'])] := hk 0 _ (by decide)
  have hid1 : um_find 0 (maptel_create st).2.repo = some [(['1'], ['2'])] := by
    rw [maptel_create_eq]
    exact um_find_repository_at hid
  have e : (maptel_create st).1 = 0 := by rw [maptel_create_eq]; exact hc
  refine ⟨ids, st, hr, ?_, ?_⟩
  · rw [e]; exact hid1
  · rw [e]
    exact maptel_transform_of_end false 22 _ 0 _ ['1'] ['x', 'x'] 2 1 ['2'] hid1
      (by decide) (by decide) (by decide) (by decide) (by decide) 2 (by decide)

/-- Claim C4, amended (fresh table is the identity): in every reachable state in
which `maptel_create` has been called fewer than `2 ^ 64` times, the table under
the identifier that `maptel_create` returns is empty, and `maptel_transform` on
it writes every valid phone number back unchanged. -/
theorem fresh_table_is_identity (TEL_NUM_MAX_LEN : Nat) (ids : List maptel_id) (st : Store)
    (h : Reachable TEL_NUM_MAX_LEN ids st) (hwrap : ids.length < ULONG_RANGE) :
    um_find (maptel_create st).1 (maptel_create st).2.repo = some [] ∧
      ∀ (ndebug : Bool) (p buf : List Char) (len fuel : Nat),
        is_valid_tel TEL_NUM_MAX_LEN (some p) = true → (c_string p).length < len →
        len ≤ buf.length → 0 < fuel →
        maptel_transform ndebug TEL_NUM_MAX_LEN fuel (maptel_create st).1 (some p) (some buf)
            len (maptel_create st).2
          = .done (c_string p ++ Char.ofNat 0 :: buf.drop ((c_string p).length + 1),
              (maptel_create st).2) := by
  obtain ⟨h1, _, h3⟩ := reachable_counter h
  have hnone : um_find st.new_maptel_id st.repo = none := by
    cases hf : um_find st.new_maptel_id st.repo with
    | none => rfl
    | some m =>
      have := h3 (by omega) st.new_maptel_id (repo_contains_of_find hf)
      rw [h1, Nat.mod_eq_of_lt hwrap] at this
      omega
  have hempty : um_find (maptel_create st).1 (maptel_create st).2.repo = some [] := by
    rw [maptel_create_eq]
    simp [repository_at, hnone, um_find_assign_eq]
  refine ⟨hempty, fun ndebug p buf len fuel hp hlen hbuf hfuel => ?_⟩
  exact maptel_transform_of_end ndebug TEL_NUM_MAX_LEN _ _ [] p buf len 0 (c_string p) hempty hp
    rfl rfl hlen hbuf fuel hfuel

/-- Witness of C4 at process start: the first table created is empty and
resolves every valid number to itself. -/
theorem fresh_table_is_identity_witness :
    um_find (maptel_create Store.initial).1 (maptel_create Store.initial).2.repo = some [] ∧
      ∀ (ndebug : Bool) (p buf : List Char) (len fuel : Nat),
        is_valid_tel 22 (some p) = true → (c_string p).length < len →
        len ≤ buf.length → 0 < fuel →
        maptel_transform ndebug 22 fuel (maptel_create Store.initial).1 (some p) (some buf)
            len (maptel_create Store.initial).2
          = .done (c_string p ++ Char.ofNat 0 :: buf.drop ((c_string p).length + 1),
              (maptel_create Store.initial).2) :=
  fresh_table_is_identity 22 [] Store.initial Reachable.initial (by decide)

/-- Claim C5, refuted as stated: after `2 ^ 64` calls of `maptel_create` the
counter has wrapped, and the next call returns an identifier returned before. -/
theorem create_reuses_identifier_counterexample :
    ∃ ids st, Reachable 22 ids st ∧ (maptel_create st).1 ∈ ids := by
  obtain ⟨ids, st, hr, hl, _⟩ :=
    reachable_creates (Reachable.initial : Reachable 22 [] Store.initial) ULONG_RANGE
  obtain ⟨h1, h2, _⟩ := reachable_counter hr
  simp only [List.length_nil, Nat.zero_add] at hl
  have e : (maptel_create st).1 = 0 := by
    rw [maptel_create_eq]
    show st.new_maptel_id = 0
    rw [h1, hl, Nat.mod_self]
  refine ⟨ids, st, hr, ?_⟩
  rw [e, h2, List.mem_map]
  exact ⟨0, List.mem_range.mpr (by rw [hl]; decide), by decide⟩

/-- Claim C5, amended (identifier freshness): in every reachable state in which
`maptel_create` has been called fewer than `2 ^ 64` times, the next call returns
the number of calls made before it: 0 for the first call, and a value strictly
greater than every identifier returned earlier, so none of them is returned
again, whether or not its table has been deleted. -/
theorem create_returns_fresh_identifier (TEL_NUM_MAX_LEN : Nat) (ids : List maptel_id)
    (st : Store) (h : Reachable TEL_NUM_MAX_LEN ids st) (hwrap : ids.length < ULONG_RANGE) :
    (maptel_create st).1 = ids.length ∧
      (ids = [] → (maptel_create st).1 = 0) ∧
      (∀ id ∈ ids, id < (maptel_create st).1) ∧
      (maptel_create st).1 ∉ ids := by
  obtain ⟨h1, h2, _⟩ := reachable_counter h
  have e : (maptel_create st).1 = ids.length := by
    rw [maptel_create_eq]
    simp only [h1]
    exact Nat.mod_eq_of_lt hwrap
  have hlt : ∀ id ∈ ids, id < ids.length := by
    intro id hid
    rw [h2, List.mem_map] at hid
    obtain ⟨i, hi, rfl⟩ := hid
    have hi1 : i < ids.length := List.mem_range.mp hi
    exact Nat.lt_of_le_of_lt (Nat.mod_le _ _) hi1
  refine ⟨e, fun hnil => ?_, fun id hid => ?_, fun hmem => ?_⟩
  · rw [e, hnil]; rfl
  · rw [e]; exact hlt id hid
  · rw [e] at hmem
    exact Nat.lt_irrefl _ (hlt _ hmem)

/-- Witness of C5 after a create, a delete of the table created and no other
call: the next create returns 1, not 0 again. -/
theorem create_returns_fresh_identifier_witness :
    (maptel_create ⟨[], 1⟩).1 = [0].length ∧
      (([0] : List maptel_id) = [] → (maptel_create ⟨[], 1⟩).1 = 0) ∧
      (∀ id ∈ ([0] : List maptel_id), id < (maptel_create ⟨[], 1⟩).1) ∧
      (maptel_create ⟨[], 1⟩).1 ∉ ([0] : List maptel_id) :=
  create_returns_fresh_identifier 22 [0] ⟨[], 1⟩
    (Reachable.delete false 0 (Reachable.create Reachable.initial) (by decide) (by decide))
    (by decide)

/-! ## Validity of phone numbers -/

/-- The scan stops within its bound and within the string. -/
theorem is_valid_tel_loop_le (n : Nat) :
    ∀ s : List Char, is_valid_tel_loop s n 0 ≤ n ∧ is_valid_tel_loop s n 0 ≤ s.length := by
  induction n with
  | zero => intro s; simp [is_valid_tel_loop]
  | succ n ih =>
    intro s
    cases s with
    | nil =>
      have hd : Char.isDigit (Char.ofNat 0) = false := by decide
      simp [is_valid_tel_loop, c_char_at, hd]
    | cons c rest =>
      simp only [is_valid_tel_loop, List.length_cons]
      split
      · exact ⟨Nat.zero_le _, Nat.zero_le _⟩
      · rw [is_valid_tel_loop_cons]
        have := ih rest
        omega

/-- On a string of digits the scan runs to its bound or to the end of the
string. -/
theorem is_valid_tel_loop_of_digits (n : Nat) :
    ∀ s : List Char, (∀ c ∈ s, c.isDigit = true) → is_valid_tel_loop s n 0 = min n s.length := by
  induction n with
  | zero => intro s _; simp [is_valid_tel_loop]
  | succ n ih =>
    intro s hs
    cases s with
    | nil =>
      have hd : Char.isDigit (Char.ofNat 0) = false := by decide
      simp [is_valid_tel_loop, c_char_at, hd]
    | cons c rest =>
      have hc : c.isDigit = true := hs c (List.mem_cons_self _ _)
      simp only [is_valid_tel_loop, c_char_at, List.getD_cons_zero, hc, Bool.not_true,
        Bool.false_eq_true, if_false, List.length_cons]
      rw [is_valid_tel_loop_cons, ih rest fun x hx => hs x (List.mem_cons_of_mem _ hx)]
      omega

/-- What `is_valid_tel` decides on a string without an embedded terminator: the
string is made of digits and has at most `TEL_NUM_MAX_LEN + 1` of them. -/
theorem is_valid_tel_iff (TEL_NUM_MAX_LEN : Nat) (s : List Char)
    (hs : Char.ofNat 0 ∉ s) :
    is_valid_tel TEL_NUM_MAX_LEN (some s) = true
      ↔ (∀ c ∈ s, c.isDigit = true) ∧ s.length ≤ TEL_NUM_MAX_LEN + 1 := by
  have hcs : c_string s = s := by
    unfold c_string
    rw [List.takeWhile_eq_self_iff]
    intro c hc
    have : c ≠ Char.ofNat 0 := fun e => hs (e ▸ hc)
    simpa using this
  constructor
  · intro h
    have hdig := digits_of_is_valid_tel h
    rw [hcs] at hdig
    refine ⟨hdig, ?_⟩
    have hend : c_char_at s (is_valid_tel_loop s (TEL_NUM_MAX_LEN + 1) 0) = Char.ofNat 0 := by
      simpa [is_valid_tel] using h
    rw [is_valid_tel_loop_of_digits _ s hdig] at hend
    by_contra hlen
    have hlt : TEL_NUM_MAX_LEN + 1 < s.length := by omega
    rw [Nat.min_eq_left (Nat.le_of_lt hlt)] at hend
    apply hs
    have : s[TEL_NUM_MAX_LEN + 1] = Char.ofNat 0 := by
      simpa [c_char_at, List.getD_eq_getElem?_getD, List.getElem?_eq_getElem hlt] using hend
    rw [← this]
    exact List.getElem_mem _
  · rintro ⟨hdig, hlen⟩
    simp [is_valid_tel, is_valid_tel_loop_of_digits _ s hdig, Nat.min_eq_right hlen, c_char_at]

/-- Claim C6, failing input: `is_valid_tel` accepts the string of
`TEL_NUM_MAX_LEN + 1` zeros, one digit longer than `TEL_NUM_MAX_LEN`. -/
theorem is_valid_tel_accepts_one_digit_too_many (TEL_NUM_MAX_LEN : Nat) :
    is_valid_tel TEL_NUM_MAX_LEN (some (List.replicate (TEL_NUM_MAX_LEN + 1) '0')) = true ∧
      (List.replicate (TEL_NUM_MAX_LEN + 1) '0').length = TEL_NUM_MAX_LEN + 1 := by
  refine ⟨?_, List.length_replicate _ _⟩
  have hget : (List.replicate (TEL_NUM_MAX_LEN + 1) '0')[TEL_NUM_MAX_LEN + 1]? = none :=
    List.getElem?_eq_none (by simp)
  simp [is_valid_tel, is_valid_tel_loop_replicate, c_char_at, List.getD_eq_getElem?_getD, hget]

/-- Claim C7, refuted as stated: `is_valid_tel` accepts the empty string, and
with assertions enabled `maptel_insert` stores an empty key with an empty value. -/
theorem empty_tel_counterexample :
    is_valid_tel 22 (some []) = true ∧
      maptel_insert false 22 0 (some []) (some []) ⟨[(0, [])], 1⟩
        = .done ⟨[(0, [([], [])])], 1⟩ := by
  decide

/-- Claim C7, amended: `is_valid_tel` accepts the empty string for every
`TEL_NUM_MAX_LEN`, so with assertions enabled `maptel_insert` on an existing table
stores an empty key with an empty value, `maptel_erase` completes on an empty key,
and `maptel_transform` resolves an empty source like any other string. -/
theorem empty_tel_is_accepted (TEL_NUM_MAX_LEN : Nat) (st : Store) (id : maptel_id)
    (m : maptel) (r : string) (buf : List Char) (len : Nat)
    (hid : um_find id st.repo = some m) (hres : Resolves m [] r)
    (hlen : r.length < len) (hbuf : len ≤ buf.length) :
    is_valid_tel TEL_NUM_MAX_LEN (some []) = true ∧
      maptel_insert false TEL_NUM_MAX_LEN id (some []) (some []) st
        = .done { st with repo := um_assign id (um_assign [] [] m) st.repo } ∧
      maptel_erase false TEL_NUM_MAX_LEN id (some []) st
        = .done (if (um_find [] m).isSome
            then { st with repo := um_assign id (um_erase [] m) st.repo } else st) ∧
      ∃ N, ∀ fuel, N ≤ fuel →
        maptel_transform false TEL_NUM_MAX_LEN fuel id (some []) (some buf) len st
          = .done (r ++ Char.ofNat 0 :: buf.drop (r.length + 1), st) := by
  have hv : is_valid_tel TEL_NUM_MAX_LEN (some []) = true := by
    simp [is_valid_tel, is_valid_tel_loop, c_char_at]
  refine ⟨hv, maptel_insert_eq false TEL_NUM_MAX_LEN hid hv hv,
    maptel_erase_eq false TEL_NUM_MAX_LEN hid hv, ?_⟩
  obtain ⟨N, hN⟩ := maptel_transform_of_resolves false TEL_NUM_MAX_LEN hid hv buf len
    (show Resolves m (c_string []) r from hres)
  refine ⟨N, fun fuel hfuel => ?_⟩
  rw [hN fuel hfuel,
    persist_transformation_eq false r buf len (Or.inr (by omega)) (by omega) hbuf]
  have : min r.length (len - 1) = r.length := by omega
  simp [Outcome.bind, this]

/-- Witness of C7 on an empty table: the empty source resolves to itself. -/
theorem empty_tel_is_accepted_witness :
    is_valid_tel 22 (some []) = true ∧
      maptel_insert false 22 0 (some []) (some []) ⟨[(0, [])], 1⟩
        = .done { (⟨[(0, [])], 1⟩ : Store) with repo := um_assign 0 (um_assign [] [] []) [(0, [])] } ∧
      maptel_erase false 22 0 (some []) ⟨[(0, [])], 1⟩
        = .done (if (um_find [] ([] : maptel)).isSome
            then { (⟨[(0, [])], 1⟩ : Store) with repo := um_assign 0 (um_erase [] []) [(0, [])] }
            else ⟨[(0, [])], 1⟩) ∧
      ∃ N, ∀ fuel, N ≤ fuel →
        maptel_transform false 22 fuel 0 (some []) (some ['x']) 1 ⟨[(0, [])], 1⟩
          = .done ([] ++ Char.ofNat 0 :: List.drop (([] : string).length + 1) ['x'],
              ⟨[(0, [])], 1⟩) :=
  empty_tel_is_accepted 22 ⟨[(0, [])], 1⟩ 0 [] [] ['x'] 1 (by decide)
    (Or.inl ⟨0, by decide, by decide⟩) (by decide) (by decide)

/-! ## Truncation -/

/-- Claim C8, refuted as stated: with assertions enabled, on an empty table the
source `12` (length 2) and the capacity 2 make `maptel_transform` fail the
assertion of `persist_transformation` instead of writing a truncated result. -/
theorem truncation_counterexample :
    maptel_transform false 22 1 0 (some ['1', '2']) (some ['x', 'x', 'x']) 2 ⟨[(0, [])], 1⟩
      = .assert_failed := by
  decide

/-- Claim C8, amended (truncation): for a resolved result `r` of length `L` and a
capacity `C` with `1 ≤ C < L + 1`, in a build with `NDEBUG` `maptel_transform`
completes and leaves in the buffer the first `C - 1` characters of `r` followed by
a terminator at position `C - 1`; in a build with assertions enabled the same
call fails the assertion of `persist_transformation`. -/
theorem maptel_transform_truncates (TEL_NUM_MAX_LEN : Nat) (st : Store) (id : maptel_id)
    (m : maptel) (s buf : List Char) (C : Nat) (r : string)
    (hid : um_find id st.repo = some m)
    (hvalid : is_valid_tel TEL_NUM_MAX_LEN (some s) = true)
    (hres : Resolves m (c_string s) r)
    (hC : 1 ≤ C) (hCL : C < r.length + 1) (hbuf : C ≤ buf.length) :
    ∃ N, ∀ fuel, N ≤ fuel →
      maptel_transform true TEL_NUM_MAX_LEN fuel id (some s) (some buf) C st
          = .done (r.take (C - 1) ++ Char.ofNat 0 :: buf.drop C, st) ∧
        maptel_transform false TEL_NUM_MAX_LEN fuel id (some s) (some buf) C st
          = .assert_failed := by
  obtain ⟨N1, h1⟩ := maptel_transform_of_resolves true TEL_NUM_MAX_LEN hid hvalid buf C hres
  obtain ⟨N2, h2⟩ := maptel_transform_of_resolves false TEL_NUM_MAX_LEN hid hvalid buf C hres
  refine ⟨max N1 N2, fun fuel hfuel => ⟨?_, ?_⟩⟩
  · rw [h1 fuel (le_trans (le_max_left _ _) hfuel),
      persist_transformation_eq true r buf C (Or.inl rfl) hC hbuf]
    have e1 : min r.length (C - 1) = C - 1 := by omega
    have e2 : C - 1 + 1 = C := by omega
    simp [Outcome.bind, e1, e2]
  · rw [h2 fuel (le_trans (le_max_right _ _) hfuel), persist_transformation_assert r _ C hCL]
    rfl

/-- Witness of C8 on the table `1 -> 234`: the result `234` is cut to `2` by the
capacity 2. -/
theorem maptel_transform_truncates_witness :
    ∃ N, ∀ fuel, N ≤ fuel →
      maptel_transform true 22 fuel 0 (some ['1']) (some ['x', 'x', 'x']) 2
            ⟨[(0, [(['1'], ['2', '3', '4'])])], 1⟩
          = .done (List.take (2 - 1) ['2', '3', '4'] ++ Char.ofNat 0 :: List.drop 2 ['x', 'x', 'x'],
              ⟨[(0, [(['1'], ['2', '3', '4'])])], 1⟩) ∧
        maptel_transform false 22 fuel 0 (some ['1']) (some ['x', 'x', 'x']) 2
            ⟨[(0, [(['1'], ['2', '3', '4'])])], 1⟩
          = .assert_failed :=
  maptel_transform_truncates 22 ⟨[(0, [(['1'], ['2', '3', '4'])])], 1⟩ 0
    [(['1'], ['2', '3', '4'])] ['1'] ['x', 'x', 'x'] 2 ['2', '3', '4']
    (by decide) (by decide) (Or.inl ⟨1, by decide, by decide⟩)
    (by decide) (by decide) (by decide)

/-! ## Stored values -/

/-- Claim C9, refuted as stated: the state in which table 0 holds an empty key
with an empty value is reachable by a create and an insert that passes its
checks. -/
theorem stored_values_counterexample :
    ∃ ids st m, Reachable 22 ids st ∧ um_find 0 st.repo = some m ∧
      (([], []) : string × string) ∈ m := by
  have h0 : Reachable 22 [0] ⟨[(0, [])], 1⟩ := Reachable.create Reachable.initial
  have h1 : Reachable 22 [0] ⟨[(0, [([], [])])], 1⟩ :=
    Reachable.insert false 0 (some []) (some []) h0 (by decide) (by decide)
  exact ⟨_, _, [([], [])], h1, by decide, by simp⟩

/-- Claim C9, amended (stored-value invariant): in every state reachable from the
state at process start through create, delete, insert, erase and transform calls
that pass their checks, every key and every value held in any table consists of
the digits 0-9 only. -/
theorem stored_values_are_digits (TEL_NUM_MAX_LEN : Nat) (ids : List maptel_id) (st : Store)
    (h : Reachable TEL_NUM_MAX_LEN ids st) :
    ∀ e ∈ st.repo, ∀ kv ∈ e.2,
      (∀ c ∈ kv.1, c.isDigit = true) ∧ (∀ c ∈ kv.2, c.isDigit = true) :=
  reachable_storedDigits h

/-- Witness of C9 in the state reached by a create and the insert of `1 -> 2`:
the key and the value stored there are digits. -/
theorem stored_values_are_digits_witness :
    Char.isDigit '1' = true ∧ Char.isDigit '2' = true :=
  have h := stored_values_are_digits 22 [0] ⟨[(0, [(['1'], ['2'])])], 1⟩
    (Reachable.insert false 0 (some ['1']) (some ['2'])
      (Reachable.create Reachable.initial : Reachable 22 [0] ⟨[(0, [])], 1⟩)
      (by decide) (by decide))
    (0, [(['1'], ['2'])]) (List.mem_singleton.mpr rfl) (['1'], ['2']) (List.mem_singleton.mpr rfl)
  ⟨h.1 '1' (List.mem_singleton.mpr rfl), h.2 '2' (List.mem_singleton.mpr rfl)⟩

/-! ## Deletion -/

/-- Claim C10, refuted as stated: with assertions enabled, `maptel_delete` of an
identifier that names no table fails its assertion. -/
theorem delete_absent_counterexample :
    repo_contains 0 Store.initial = false ∧
      maptel_delete false 0 Store.initial = .assert_failed := by
  decide

/-- Claim C10, amended (delete of an absent identifier): for every store and
every identifier that names no table, in a build with `NDEBUG` `maptel_delete`
completes and leaves the store, tables and counter, unchanged; in a build with
assertions enabled it fails its assertion. -/
theorem maptel_delete_absent (st : Store) (id : maptel_id)
    (h : repo_contains id st = false) :
    maptel_delete true id st = .done st ∧ maptel_delete false id st = .assert_failed := by
  simp [maptel_delete, c_assert, h, Outcome.bind]

/-- Witness of C10 on a store with table 0 only and the identifier 7. -/
theorem maptel_delete_absent_witness :
    maptel_delete true 7 ⟨[(0, [(['1'], ['2'])])], 1⟩ = .done ⟨[(0, [(['1'], ['2'])])], 1⟩ ∧
      maptel_delete false 7 ⟨[(0, [(['1'], ['2'])])], 1⟩ = .assert_failed :=
  maptel_delete_absent ⟨[(0, [(['1'], ['2'])])], 1⟩ 7 (by decide)

/-! ## Postconditions of the editing operations -/

theorem um_assign_idem {K V : Type} [DecidableEq K] (k : K) (v : V) (m : List (K × V)) :
    um_assign k v (um_assign k v m) = um_assign k v m := by
  induction m with
  | nil => simp [um_assign]
  | cons e rest ih =>
    obtain ⟨k1, v1⟩ := e
    by_cases h : k1 = k
    · simp [um_assign, h]
    · simp [um_assign, h, ih]

/-- Claim C11 (delete postcondition): for every store and every identifier of an
existing table, `maptel_delete` completes in both builds; afterwards the store has
no table under the identifier, no key is found in it, every other table is the
one it was, and the counter is unchanged. -/
theorem maptel_delete_existing (ndebug : Bool) (st : Store) (id : maptel_id)
    (h : repo_contains id st = true) :
    ∃ st1, maptel_delete ndebug id st = .done st1 ∧
      repo_contains id st1 = false ∧
      (∀ k, (maptel_contains id k st1).1 = false) ∧
      (∀ id1, id1 ≠ id → um_find id1 st1.repo = um_find id1 st.repo) ∧
      st1.new_maptel_id = st.new_maptel_id := by
  refine ⟨_, maptel_delete_eq ndebug h, ?_, ?_, ?_, rfl⟩
  · simp [repo_contains, um_find_erase]
  · intro k
    simp [maptel_contains, repository_at, um_find_erase, um_find]
  · intro id1 hne
    simp [um_find_erase, hne]

/-- Witness of C11: table 0 is deleted, table 1 stays. -/
theorem maptel_delete_existing_witness :
    ∃ st1, maptel_delete false 0 ⟨[(0, [(['1'], ['2'])]), (1, [(['3'], ['4'])])], 2⟩ = .done st1 ∧
      repo_contains 0 st1 = false ∧
      (∀ k, (maptel_contains 0 k st1).1 = false) ∧
      (∀ id1, id1 ≠ 0 → um_find id1 st1.repo
        = um_find id1 (⟨[(0, [(['1'], ['2'])]), (1, [(['3'], ['4'])])], 2⟩ : Store).repo) ∧
      st1.new_maptel_id = (⟨[(0, [(['1'], ['2'])]), (1, [(['3'], ['4'])])], 2⟩ : Store).new_maptel_id :=
  maptel_delete_existing false ⟨[(0, [(['1'], ['2'])]), (1, [(['3'], ['4'])])], 2⟩ 0 (by decide)

/-- Claim C12 (insert postcondition): for every store, existing table `id` and
valid key and value, `maptel_insert` completes in both builds; afterwards table
`id` maps the key to the value, and every other key of the table has the entry, or
the absence of an entry, that it had before. -/
theorem maptel_insert_post (ndebug : Bool) (TEL_NUM_MAX_LEN : Nat) (st : Store)
    (id : maptel_id) (m : maptel) (s d : List Char)
    (hid : um_find id st.repo = some m)
    (hs : is_valid_tel TEL_NUM_MAX_LEN (some s) = true)
    (hd : is_valid_tel TEL_NUM_MAX_LEN (some d) = true) :
    ∃ st1 m1, maptel_insert ndebug TEL_NUM_MAX_LEN id (some s) (some d) st = .done st1 ∧
      um_find id st1.repo = some m1 ∧
      um_find (c_string s) m1 = some (c_string d) ∧
      ∀ k, k ≠ c_string s → um_find k m1 = um_find k m := by
  refine ⟨_, um_assign (c_string s) (c_string d) m,
    maptel_insert_eq ndebug TEL_NUM_MAX_LEN hid hs hd, ?_, ?_, ?_⟩
  · exact um_find_assign_eq _ _ _
  · exact um_find_assign_eq _ _ _
  · intro k hk
    exact um_find_assign_ne hk _ _

/-- Witness of C12: the insert of `1 -> 5` overwrites `1 -> 2` and leaves `3 -> 4`. -/
theorem maptel_insert_post_witness :
    ∃ st1 m1, maptel_insert false 22 0 (some ['1']) (some ['5'])
          ⟨[(0, [(['1'], ['2']), (['3'], ['4'])])], 1⟩ = .done st1 ∧
      um_find 0 st1.repo = some m1 ∧
      um_find (c_string ['1']) m1 = some (c_string ['5']) ∧
      ∀ k, k ≠ c_string ['1'] → um_find k m1 = um_find k [(['1'], ['2']), (['3'], ['4'])] :=
  maptel_insert_post false 22 ⟨[(0, [(['1'], ['2']), (['3'], ['4'])])], 1⟩ 0
    [(['1'], ['2']), (['3'], ['4'])] ['1'] ['5'] (by decide) (by decide) (by decide)

/-- Claim C13 (insert idempotence): for every store, existing table and valid key
and value, `maptel_insert` completes, and the same call made again on the store it
produced completes with that very store. -/
theorem maptel_insert_twice (ndebug : Bool) (TEL_NUM_MAX_LEN : Nat) (st : Store)
    (id : maptel_id) (m : maptel) (s d : List Char)
    (hid : um_find id st.repo = some m)
    (hs : is_valid_tel TEL_NUM_MAX_LEN (some s) = true)
    (hd : is_valid_tel TEL_NUM_MAX_LEN (some d) = true) :
    ∃ st1, maptel_insert ndebug TEL_NUM_MAX_LEN id (some s) (some d) st = .done st1 ∧
      maptel_insert ndebug TEL_NUM_MAX_LEN id (some s) (some d) st1 = .done st1 := by
  refine ⟨_, maptel_insert_eq ndebug TEL_NUM_MAX_LEN hid hs hd, ?_⟩
  have hid1 : um_find id
      ({ st with repo := um_assign id (um_assign (c_string s) (c_string d) m) st.repo } : Store).repo
      = some (um_assign (c_string s) (c_string d) m) := um_find_assign_eq _ _ _
  rw [maptel_insert_eq ndebug TEL_NUM_MAX_LEN hid1 hs hd]
  simp [um_assign_idem]

/-- Witness of C13 on the table `1 -> 2` and the pair `3 -> 4`. -/
theorem maptel_insert_twice_witness :
    ∃ st1, maptel_insert false 22 0 (some ['3']) (some ['4']) ⟨[(0, [(['1'], ['2'])])], 1⟩
          = .done st1 ∧
      maptel_insert false 22 0 (some ['3']) (some ['4']) st1 = .done st1 :=
  maptel_insert_twice false 22 ⟨[(0, [(['1'], ['2'])])], 1⟩ 0 [(['1'], ['2'])] ['3'] ['4']
    (by decide) (by decide) (by decide)

/-- Claim C14 (erase postcondition): for every store, existing table `id` and
valid key, `maptel_erase` completes in both builds; afterwards table `id` has no
entry for the key and every other key has the entry it had before; when the key
had no entry the store is the one it was. -/
theorem maptel_erase_post (ndebug : Bool) (TEL_NUM_MAX_LEN : Nat) (st : Store)
    (id : maptel_id) (m : maptel) (s : List Char)
    (hid : um_find id st.repo = some m)
    (hs : is_valid_tel TEL_NUM_MAX_LEN (some s) = true) :
    ∃ st1 m1, maptel_erase ndebug TEL_NUM_MAX_LEN id (some s) st = .done st1 ∧
      um_find id st1.repo = some m1 ∧
      um_find (c_string s) m1 = none ∧
      (∀ k, k ≠ c_string s → um_find k m1 = um_find k m) ∧
      (um_find (c_string s) m = none → st1 = st) := by
  cases hk : um_find (c_string s) m with
  | none =>
    refine ⟨st, m, ?_, hid, hk, fun _ _ => rfl, fun _ => rfl⟩
    rw [maptel_erase_eq ndebug TEL_NUM_MAX_LEN hid hs]
    simp [hk]
  | some v =>
    refine ⟨{ st with repo := um_assign id (um_erase (c_string s) m) st.repo },
      um_erase (c_string s) m, ?_, um_find_assign_eq _ _ _, ?_, ?_, fun h => by cases h⟩
    · rw [maptel_erase_eq ndebug TEL_NUM_MAX_LEN hid hs]
      simp [hk]
    · simp [um_find_erase]
    · intro k hne
      simp [um_find_erase, hne]

/-- Witness of C14: the erase of `1` drops `1 -> 2` and leaves `3 -> 4`. -/
theorem maptel_erase_post_witness :
    ∃ st1 m1, maptel_erase false 22 0 (some ['1']) ⟨[(0, [(['1'], ['2']), (['3'], ['4'])])], 1⟩
          = .done st1 ∧
      um_find 0 st1.repo = some m1 ∧
      um_find (c_string ['1']) m1 = none ∧
      (∀ k, k ≠ c_string ['1'] → um_find k m1 = um_find k [(['1'], ['2']), (['3'], ['4'])]) ∧
      (um_find (c_string ['1']) [(['1'], ['2']), (['3'], ['4'])] = none →
        st1 = ⟨[(0, [(['1'], ['2']), (['3'], ['4'])])], 1⟩) :=
  maptel_erase_post false 22 ⟨[(0, [(['1'], ['2']), (['3'], ['4'])])], 1⟩ 0
    [(['1'], ['2']), (['3'], ['4'])] ['1'] (by decide) (by decide)

/-! ## Resolution depends on the table only -/

/-- Every source has a resolution: its chain ends or it does not. -/
theorem exists_resolves (m : maptel) (src : string) : ∃ r, Resolves m src r := by
  by_cases h : ∃ n t, hops m n src = some t ∧ um_find t m = none
  · obtain ⟨n, t, hn, ht⟩ := h
    exact ⟨t, Or.inl ⟨n, hn, ht⟩⟩
  · exact ⟨src, Or.inr ⟨fun n t hn ht => h ⟨n, t, hn, ht⟩, rfl⟩⟩

/-- A resolution resolves to itself. -/
theorem resolves_self {m : maptel} {src r : string} (h : Resolves m src r) :
    Resolves m r r := by
  rcases h with ⟨n, _, ht⟩ | ⟨hall, hr⟩
  · exact Or.inl ⟨0, rfl, ht⟩
  · rw [hr]; exact Or.inr ⟨hall, rfl⟩

/-- With enough fuel the resolution step returns the resolution and leaves the
store alone. -/
theorem resolve_of_resolves (ndebug : Bool) {id : maptel_id} {st : Store} {m : maptel}
    (hid : um_find id st.repo = some m) {src r : string} (hres : Resolves m src r) :
    ∃ N, ∀ fuel, N ≤ fuel → resolve ndebug fuel id src st = .done (r, st) := by
  rcases hres with ⟨n, hn, ht⟩ | ⟨hall, hr⟩
  · refine ⟨n + 1, fun fuel hfuel => ?_⟩
    simp [resolve, Outcome.bind, isTransformationCyclic_of_end ndebug hid hn ht fuel (by omega),
      transform_of_end ndebug hid hn ht fuel (by omega)]
  · obtain ⟨N, hN⟩ :=
      isTransformationCyclic_of_endless ndebug hid (hops_defined_of_endless hall)
    refine ⟨N, fun fuel hfuel => ?_⟩
    simp [resolve, Outcome.bind, hN fuel hfuel, hr]

/-- The resolution step is the one `maptel_transform` performs. -/
theorem maptel_transform_eq_resolve (ndebug : Bool) (TEL_NUM_MAX_LEN fuel : Nat)
    (id : maptel_id) (s : List Char) (tel_dst : Option (List Char)) (len : Nat) (st : Store) :
    maptel_transform ndebug TEL_NUM_MAX_LEN fuel id (some s) tel_dst len st
      = (c_assert ndebug (repo_contains id st && is_valid_tel TEL_NUM_MAX_LEN (some s)
          && tel_dst.isSome)).bind fun _ =>
        (resolve ndebug fuel id (c_string s) st).bind fun t =>
        (persist_transformation ndebug t.1 tel_dst len).bind fun buf => .done (buf, t.2) := by
  unfold maptel_transform resolve
  cases c_assert ndebug (repo_contains id st && is_valid_tel TEL_NUM_MAX_LEN (some s)
    && tel_dst.isSome) <;> simp only [Outcome.bind]
  cases isTransformationCyclic ndebug fuel id (c_string s) st <;> rfl

/-- Two stores that hold the same table under `id` give, with enough fuel, the
same outcome of `maptel_transform` on it, each keeping its own store. -/
theorem maptel_transform_same_table (ndebug : Bool) (TEL_NUM_MAX_LEN : Nat) {id : maptel_id}
    {st st1 : Store} {m : maptel} (hid : um_find id st.repo = some m)
    (hid1 : um_find id st1.repo = some m) {s : List Char}
    (hvalid : is_valid_tel TEL_NUM_MAX_LEN (some s) = true) (buf : List Char) (len : Nat) :
    ∃ N, ∀ fuel, N ≤ fuel → ∃ x : Outcome (List Char),
      maptel_transform ndebug TEL_NUM_MAX_LEN fuel id (some s) (some buf) len st
        = x.bind (fun out => .done (out, st)) ∧
      maptel_transform ndebug TEL_NUM_MAX_LEN fuel id (some s) (some buf) len st1
        = x.bind (fun out => .done (out, st1)) := by
  obtain ⟨r, hres⟩ := exists_resolves m (c_string s)
  obtain ⟨N1, h1⟩ := maptel_transform_of_resolves ndebug TEL_NUM_MAX_LEN hid hvalid buf len hres
  obtain ⟨N2, h2⟩ := maptel_transform_of_resolves ndebug TEL_NUM_MAX_LEN hid1 hvalid buf len hres
  exact ⟨max N1 N2, fun fuel hfuel => ⟨persist_transformation ndebug r (some buf) len,
    h1 fuel (le_trans (le_max_left _ _) hfuel), h2 fuel (le_trans (le_max_right _ _) hfuel)⟩⟩

/-- Claim C15 (cross-table independence): for two distinct identifiers of
existing tables, a `maptel_insert`, `maptel_erase` or `maptel_delete` on the first
completes and leaves the table of the second as it was, and with enough fuel
`maptel_transform` on the second has the same outcome, the same buffer written,
before and after. -/
theorem cross_table_independence (ndebug : Bool) (TEL_NUM_MAX_LEN : Nat) (st : Store)
    (id1 id2 : maptel_id) (m1 m2 : maptel) (s d src buf : List Char) (len : Nat)
    (hne : id1 ≠ id2)
    (hid1 : um_find id1 st.repo = some m1) (hid2 : um_find id2 st.repo = some m2)
    (hs : is_valid_tel TEL_NUM_MAX_LEN (some s) = true)
    (hd : is_valid_tel TEL_NUM_MAX_LEN (some d) = true)
    (hsrc : is_valid_tel TEL_NUM_MAX_LEN (some src) = true) :
    (∃ a, maptel_insert ndebug TEL_NUM_MAX_LEN id1 (some s) (some d) st = .done a) ∧
    (∃ b, maptel_erase ndebug TEL_NUM_MAX_LEN id1 (some s) st = .done b) ∧
    (∃ c, maptel_delete ndebug id1 st = .done c) ∧
    ∀ st1, (maptel_insert ndebug TEL_NUM_MAX_LEN id1 (some s) (some d) st = .done st1 ∨
        maptel_erase ndebug TEL_NUM_MAX_LEN id1 (some s) st = .done st1 ∨
        maptel_delete ndebug id1 st = .done st1) →
      um_find id2 st1.repo = some m2 ∧
      ∃ N, ∀ fuel, N ≤ fuel → ∃ x : Outcome (List Char),
        maptel_transform ndebug TEL_NUM_MAX_LEN fuel id2 (some src) (some buf) len st
          = x.bind (fun out => .done (out, st)) ∧
        maptel_transform ndebug TEL_NUM_MAX_LEN fuel id2 (some src) (some buf) len st1
          = x.bind (fun out => .done (out, st1)) := by
  have hc1 : repo_contains id1 st = true := repo_contains_of_find hid1
  refine ⟨⟨_, maptel_insert_eq ndebug TEL_NUM_MAX_LEN hid1 hs hd⟩,
    ⟨_, maptel_erase_eq ndebug TEL_NUM_MAX_LEN hid1 hs⟩,
    ⟨_, maptel_delete_eq ndebug hc1⟩, fun st1 hop => ?_⟩
  have hkeep : um_find id2 st1.repo = some m2 := by
    rcases hop with h | h | h
    · rw [maptel_insert_eq ndebug TEL_NUM_MAX_LEN hid1 hs hd] at h
      rw [← Outcome.done.inj h]
      simpa [um_find_assign_ne (Ne.symm hne)] using hid2
    · rw [maptel_erase_eq ndebug TEL_NUM_MAX_LEN hid1 hs] at h
      rw [← Outcome.done.inj h]
      split
      · simpa [um_find_assign_ne (Ne.symm hne)] using hid2
      · exact hid2
    · rw [maptel_delete_eq ndebug hc1] at h
      rw [← Outcome.done.inj h]
      simpa [um_find_erase, Ne.symm hne] using hid2
  exact ⟨hkeep, maptel_transform_same_table ndebug TEL_NUM_MAX_LEN hid2 hkeep hsrc buf len⟩

/-- Witness of C15 on two tables that both hold the key `1`. -/
theorem cross_table_independence_witness :
    (∃ a, maptel_insert false 22 0 (some ['1']) (some ['5'])
      ⟨[(0, [(['1'], ['2'])]), (1, [(['1'], ['3'])])], 2⟩ = .done a) ∧
    (∃ b, maptel_erase false 22 0 (some ['1'])
      ⟨[(0, [(['1'], ['2'])]), (1, [(['1'], ['3'])])], 2⟩ = .done b) ∧
    (∃ c, maptel_delete false 0 ⟨[(0, [(['1'], ['2'])]), (1, [(['1'], ['3'])])], 2⟩ = .done c) ∧
    ∀ st1, (maptel_insert false 22 0 (some ['1']) (some ['5'])
          ⟨[(0, [(['1'], ['2'])]), (1, [(['1'], ['3'])])], 2⟩ = .done st1 ∨
        maptel_erase false 22 0 (some ['1'])
          ⟨[(0, [(['1'], ['2'])]), (1, [(['1'], ['3'])])], 2⟩ = .done st1 ∨
        maptel_delete false 0 ⟨[(0, [(['1'], ['2'])]), (1, [(['1'], ['3'])])], 2⟩ = .done st1) →
      um_find 1 st1.repo = some [(['1'], ['3'])] ∧
      ∃ N, ∀ fuel, N ≤ fuel → ∃ x : Outcome (List Char),
        maptel_transform false 22 fuel 1 (some ['1']) (some ['x', 'x']) 2
            ⟨[(0, [(['1'], ['2'])]), (1, [(['1'], ['3'])])], 2⟩
          = x.bind (fun out => .done (out, ⟨[(0, [(['1'], ['2'])]), (1, [(['1'], ['3'])])], 2⟩)) ∧
        maptel_transform false 22 fuel 1 (some ['1']) (some ['x', 'x']) 2 st1
          = x.bind (fun out => .done (out, st1)) :=
  cross_table_independence false 22 ⟨[(0, [(['1'], ['2'])]), (1, [(['1'], ['3'])])], 2⟩ 0 1
    [(['1'], ['2'])] [(['1'], ['3'])] ['1'] ['5'] ['1'] ['x', 'x'] 2
    (by decide) (by decide) (by decide) (by decide) (by decide) (by decide)

/-! ## Transform reads only -/

/-- A lookup `m[k]` of a key without an entry would change the store: it adds the
entry `k -> ""`. -/
theorem maptel_at_missing_ne {id : maptel_id} {st : Store} {m : maptel}
    (hid : um_find id st.repo = some m) {k : string} (hk : um_find k m = none) :
    (maptel_at id k st).2 ≠ st := by
  intro h
  have h1 : um_find id (maptel_at id k st).2.repo = some (um_assign k [] m) := by
    simp [maptel_at, repository_at_of_find hid, hk, um_find_assign_eq]
  rw [h, hid] at h1
  have h2 : um_find k (um_assign k ([] : string) m) = some [] := um_find_assign_eq _ _ _
  rw [← Option.some.inj h1, hk] at h2
  cases h2

/-- Claim C16 (transform is read-only): for every store, existing table and
source, whenever `maptel_transform` completes the store is the one it was, and
with enough fuel its resolution step does complete with that store; every lookup
`m[turtle]`, `m[hare]`, `m[result]` made on the way was therefore of a key with an
entry, since a lookup of a key without one changes the store. -/
theorem maptel_transform_read_only (ndebug : Bool) (TEL_NUM_MAX_LEN : Nat) (st : Store)
    (id : maptel_id) (m : maptel) (s : List Char) (tel_dst : Option (List Char)) (len : Nat)
    (hid : um_find id st.repo = some m) :
    (∀ fuel out st1,
      maptel_transform ndebug TEL_NUM_MAX_LEN fuel id (some s) tel_dst len st = .done (out, st1) →
        st1 = st) ∧
    (∃ N, ∀ fuel, N ≤ fuel → ∃ r, resolve ndebug fuel id (c_string s) st = .done (r, st)) ∧
    (∀ k, um_find k m = none → (maptel_at id k st).2 ≠ st) := by
  refine ⟨fun fuel out st1 h => maptel_transform_store_eq hid h, ?_,
    fun k hk => maptel_at_missing_ne hid hk⟩
  obtain ⟨r, hres⟩ := exists_resolves m (c_string s)
  obtain ⟨N, hN⟩ := resolve_of_resolves ndebug hid hres
  exact ⟨N, fun fuel hfuel => ⟨r, hN fuel hfuel⟩⟩

/-- Witness of C16 on the cyclic table `1 -> 2, 2 -> 1`. -/
theorem maptel_transform_read_only_witness :
    (∀ fuel out st1,
      maptel_transform false 22 fuel 0 (some ['1']) (some ['x', 'x']) 2
          ⟨[(0, [(['1'], ['2']), (['2'], ['1'])])], 1⟩ = .done (out, st1) →
        st1 = ⟨[(0, [(['1'], ['2']), (['2'], ['1'])])], 1⟩) ∧
    (∃ N, ∀ fuel, N ≤ fuel → ∃ r, resolve false fuel 0 (c_string ['1'])
        ⟨[(0, [(['1'], ['2']), (['2'], ['1'])])], 1⟩
      = .done (r, ⟨[(0, [(['1'], ['2']), (['2'], ['1'])])], 1⟩)) ∧
    (∀ k, um_find k [(['1'], ['2']), (['2'], ['1'])] = none →
      (maptel_at 0 k ⟨[(0, [(['1'], ['2']), (['2'], ['1'])])], 1⟩).2
        ≠ ⟨[(0, [(['1'], ['2']), (['2'], ['1'])])], 1⟩) :=
  maptel_transform_read_only false 22 ⟨[(0, [(['1'], ['2']), (['2'], ['1'])])], 1⟩ 0
    [(['1'], ['2']), (['2'], ['1'])] ['1'] (some ['x', 'x']) 2 (by decide)

/-- Claim C17 (transform is idempotent): for every store, existing table and
source, with enough fuel the resolution step returns a string `r`, and the
resolution step on `r` returns `r` again; `r` is a key without an entry or a key
whose chain never reaches a key without an entry. -/
theorem resolve_idempotent (ndebug : Bool) (st : Store) (id : maptel_id) (m : maptel)
    (src : string) (hid : um_find id st.repo = some m) :
    ∃ N, ∀ fuel, N ≤ fuel → ∃ r,
      resolve ndebug fuel id src st = .done (r, st) ∧
      resolve ndebug fuel id r st = .done (r, st) ∧
      (um_find r m = none ∨ ∀ n t, hops m n r = some t → um_find t m ≠ none) := by
  obtain ⟨r, hres⟩ := exists_resolves m src
  obtain ⟨N1, h1⟩ := resolve_of_resolves ndebug hid hres
  obtain ⟨N2, h2⟩ := resolve_of_resolves ndebug hid (resolves_self hres)
  refine ⟨max N1 N2, fun fuel hfuel => ⟨r, h1 fuel (le_trans (le_max_left _ _) hfuel),
    h2 fuel (le_trans (le_max_right _ _) hfuel), ?_⟩⟩
  rcases hres with ⟨n, _, ht⟩ | ⟨hall, hr⟩
  · exact Or.inl ht
  · rw [hr]; exact Or.inr hall

/-- Witness of C17 on the table `1 -> 2, 2 -> 3`. -/
theorem resolve_idempotent_witness :
    ∃ N, ∀ fuel, N ≤ fuel → ∃ r,
      resolve false fuel 0 ['1'] ⟨[(0, [(['1'], ['2']), (['2'], ['3'])])], 1⟩
        = .done (r, ⟨[(0, [(['1'], ['2']), (['2'], ['3'])])], 1⟩) ∧
      resolve false fuel 0 r ⟨[(0, [(['1'], ['2']), (['2'], ['3'])])], 1⟩
        = .done (r, ⟨[(0, [(['1'], ['2']), (['2'], ['3'])])], 1⟩) ∧
      (um_find r [(['1'], ['2']), (['2'], ['3'])] = none ∨
        ∀ n t, hops [(['1'], ['2']), (['2'], ['3'])] n r = some t →
          um_find t [(['1'], ['2']), (['2'], ['3'])] ≠ none) :=
  resolve_idempotent false ⟨[(0, [(['1'], ['2']), (['2'], ['3'])])], 1⟩ 0
    [(['1'], ['2']), (['2'], ['3'])] ['1'] (by decide)

/-! ## Exact output -/

/-- Claim C18 (exact output when the buffer is large enough): for a string `r` of
length `L` and a capacity `C ≥ L + 1`, the boundary `C = L + 1` included,
`persist_transformation` completes in both builds and leaves in the buffer the
`L` characters of `r` at positions `0 .. L - 1`, a terminator at position `L`, and
at every position from `L + 1` on what was there before. -/
theorem persist_transformation_exact (ndebug : Bool) (r : string) (buf : List Char) (C : Nat)
    (hC : r.length + 1 ≤ C) (hbuf : C ≤ buf.length) :
    ∃ out, persist_transformation ndebug r (some buf) C = .done out ∧
      out = r ++ Char.ofNat 0 :: buf.drop (r.length + 1) ∧
      out.length = buf.length ∧
      ∀ i, r.length + 1 ≤ i → out[i]? = buf[i]? := by
  refine ⟨_, ?_, rfl, ?_, ?_⟩
  · rw [persist_transformation_eq ndebug r buf C (Or.inr hC) (by omega) hbuf]
    have : min r.length (C - 1) = r.length := by omega
    simp [this]
  · simp only [List.length_append, List.length_cons, List.length_drop]
    omega
  · intro i hi
    rw [List.getElem?_append_right (by omega)]
    obtain ⟨j, rfl⟩ : ∃ j, i = r.length + 1 + j := ⟨i - (r.length + 1), by omega⟩
    have e : r.length + 1 + j - r.length = j + 1 := by omega
    rw [e, List.getElem?_cons_succ, List.getElem?_drop]

/-- Witness of C18 at the boundary: the string `12` and the capacity 3 in a buffer
of 4 characters. -/
theorem persist_transformation_exact_witness :
    ∃ out, persist_transformation false ['1', '2'] (some ['a', 'b', 'c', 'd']) 3 = .done out ∧
      out = ['1', '2'] ++ Char.ofNat 0 :: List.drop (['1', '2'].length + 1) ['a', 'b', 'c', 'd'] ∧
      out.length = ['a', 'b', 'c', 'd'].length ∧
      ∀ i, ['1', '2'].length + 1 ≤ i → out[i]? = ['a', 'b', 'c', 'd'][i]? :=
  persist_transformation_exact false ['1', '2'] ['a', 'b', 'c', 'd'] 3 (by decide) (by decide)

end Maptel
